import Mathlib

/-!
# Verification of the record cache / relational-resolution engine
# of `odoo-rpc-client` (`openerp_proxy/orm/record.py`)

This file gives a shallow embedding, in Lean 4, of the record-cache core of
the repository: the `Cache` store, `Record` field access (`Record._get_field`,
`Record.__getitem__`, `Record.__eq__`, `Record.refresh`), `RecordList`
operations (`insert`, `mapped`, `copy`) and `ObjectRecords.read_records`.

The cache module (`openerp_proxy/orm/cache.py`) and the collection proxy
(`openerp_proxy/orm/object.py`) are not part of the sources being verified;
their operations used by `record.py` are modelled from the specification
(section 4.1 "Cache Store" and section 6 "External interfaces") and each such
definition is marked `Modelled from the spec:` in its doc comment.

Conventions:
* Python dictionaries become association lists (`List (key × value)`);
  lookup finds the first binding, update replaces the first binding.
* The remote database behind the collection proxy is a total function
  `DB : CollName → RowId → FieldName → RawValue`; each remote `read`
  performed by the code under scrutiny is recorded in a list of
  `ReadCall` values so that theorems can count round trips.
* Machine integers are modelled as `Int`/`Nat` (ids are positive database
  ids; overflow is irrelevant at these magnitudes).
-/

set_option autoImplicit false

namespace OdooRpc

abbrev FieldName := String
abbrev CollName := String
abbrev RowId := Nat

/-- Raw field values as returned by the remote `read` call and stored in the
cache: Python `False` (the falsy placeholder Odoo uses for absent values),
integers, strings, a `[id, display_name]` pair (many2one values), and a list
of ids (one2many / many2many values). -/
inductive RawValue where
  | vfalse
  | vint (n : Int)
  | vstr (s : String)
  | vpair (rid : RowId) (name : String)
  | vids (ids : List RowId)
  deriving Repr, DecidableEq

/-- Python truthiness of a raw value (`bool(value)`). -/
def RawValue.truthy : RawValue → Bool
  | .vfalse => false
  | .vint n => n != 0
  | .vstr s => s != ""
  | .vpair _ _ => true
  | .vids ids => !ids.isEmpty

/-! ## Association lists (the embedding of Python `dict`) -/

/-- First-binding lookup in an association list (Python `d.get(k)`). -/
def alget {α β : Type} [DecidableEq α] : List (α × β) → α → Option β
  | [], _ => none
  | (k, v) :: rest, k' => if k = k' then some v else alget rest k'

/-- Replace the first binding of `k` (or append one): Python `d[k] = v`. -/
def alset {α β : Type} [DecidableEq α] : List (α × β) → α → β → List (α × β)
  | [], k, v => [(k, v)]
  | (k', v') :: rest, k, v =>
      if k' = k then (k, v) :: rest else (k', v') :: alset rest k v

@[simp] theorem alget_nil {α β : Type} [DecidableEq α] (k : α) :
    alget ([] : List (α × β)) k = none := rfl

@[simp] theorem alget_cons {α β : Type} [DecidableEq α]
    (k k' : α) (v : β) (rest : List (α × β)) :
    alget ((k, v) :: rest) k' = if k = k' then some v else alget rest k' := rfl

@[simp] theorem alset_nil {α β : Type} [DecidableEq α] (k : α) (v : β) :
    alset ([] : List (α × β)) k v = [(k, v)] := rfl

theorem alget_alset {α β : Type} [DecidableEq α]
    (l : List (α × β)) (k k' : α) (v : β) :
    alget (alset l k v) k' = if k = k' then some v else alget l k' := by
  induction l with
  | nil => simp [alset]
  | cons hd tl ih =>
      obtain ⟨k₀, v₀⟩ := hd
      by_cases h₀ : k₀ = k
      · subst h₀
        by_cases h₁ : k₀ = k'
        · subst h₁; simp [alset]
        · simp [alset, h₁]
      · by_cases h₁ : k₀ = k'
        · subst h₁
          have : k ≠ k₀ := fun h => h₀ h.symm
          simp [alset, h₀, this, ih]
        · simp [alset, h₀, h₁, ih]

@[simp] theorem alget_alset_self {α β : Type} [DecidableEq α]
    (l : List (α × β)) (k : α) (v : β) :
    alget (alset l k v) k = some v := by
  simp [alget_alset]

theorem alget_alset_ne {α β : Type} [DecidableEq α]
    (l : List (α × β)) (k k' : α) (v : β) (h : k ≠ k') :
    alget (alset l k v) k' = alget l k' := by
  simp [alget_alset, h]

/-- Keys of an association list, in order. -/
def alkeys {α β : Type} (l : List (α × β)) : List α := l.map (·.1)

theorem alkeys_alset {α β : Type} [DecidableEq α]
    (l : List (α × β)) (k : α) (v : β) :
    alkeys (alset l k v) = if (alget l k).isSome then alkeys l else alkeys l ++ [k] := by
  induction l with
  | nil => simp [alkeys]
  | cons hd tl ih =>
      obtain ⟨k₀, v₀⟩ := hd
      by_cases h₀ : k₀ = k
      · subst h₀; simp [alset, alkeys]
      · have : k ≠ k₀ := fun h => h₀ h.symm
        by_cases hmem : (alget tl k).isSome
        · simp [alset, alkeys, h₀, this, hmem] at ih ⊢
          exact ih
        · simp [alset, alkeys, h₀, this, hmem] at ih ⊢
          exact ih

theorem alget_isSome_iff_mem_alkeys {α β : Type} [DecidableEq α]
    (l : List (α × β)) (k : α) :
    (alget l k).isSome = true ↔ k ∈ alkeys l := by
  induction l with
  | nil => simp [alkeys]
  | cons hd tl ih =>
      obtain ⟨k₀, v₀⟩ := hd
      by_cases h₀ : k₀ = k
      · subst h₀; simp [alkeys]
      · simp [alkeys, h₀, Ne.symm h₀] at ih ⊢
        exact ih

/-! ## The Cache Store

`Modelled from the spec:` the two-level cache of `openerp_proxy/orm/cache.py`
(absent from the verified sources) is, per section 3 of the specification,
`rows : collection_name → row_id → (field_name → value)`. -/

/-- One row's field mapping. -/
abbrev Entry := List (FieldName × RawValue)

/-- Per-collection bucket: row id → field mapping. -/
abbrev Bucket := List (RowId × Entry)

/-- The Cache Store: collection name → bucket. -/
abbrev Cache := List (CollName × Bucket)

/-- Modelled from the spec: `empty_cache()` — a Cache Store "created empty
at query boundaries". -/
def emptyCache : Cache := []

/-- Bucket of a collection (`cache[obj.name]`), empty if absent
(`get_or_create_bucket` of spec section 4.1 guarantees not-null). -/
def getBucket (c : Cache) (coll : CollName) : Bucket :=
  (alget c coll).getD []

/-- Field mapping of one row, empty if the row is not registered. -/
def getEntry (c : Cache) (coll : CollName) (rid : RowId) : Entry :=
  (alget (getBucket c coll) rid).getD []

/-- Cached value of one field of one row, `none` when not yet fetched. -/
def lookupField (c : Cache) (coll : CollName) (rid : RowId) (f : FieldName) :
    Option RawValue :=
  alget (getEntry c coll rid) f

/-- Overwrite one row's whole field mapping. -/
def setEntry (c : Cache) (coll : CollName) (rid : RowId) (e : Entry) : Cache :=
  alset c coll (alset (getBucket c coll) rid e)

/-- Modelled from the spec: `register(collection_name, row_id)` of spec
section 4.1 — "ensures `row_id` is a key in the bucket (value `{}` if new);
idempotent". This is what `Record.__init__`'s `self._lcache[self._id]` line
performs. -/
def registerId (c : Cache) (coll : CollName) (rid : RowId) : Cache :=
  if (alget (getBucket c coll) rid).isSome then c else setEntry c coll rid []

/-- Modelled from the spec: `register_many` / `update_keys` — the batched
registration used by `RecordList.__init__`. -/
def registerIds (c : Cache) (coll : CollName) (ids : List RowId) : Cache :=
  ids.foldl (fun acc i => registerId acc coll i) c

/-- Modelled from the spec: `write_field(collection_name, row_id,
field_name, value)` — "sets the value, used after a batched read returns"
(the cache's `cache_field` method called by `Record._get_field`). -/
def writeField (c : Cache) (coll : CollName) (rid : RowId)
    (f : FieldName) (v : RawValue) : Cache :=
  setEntry c coll rid (alset (getEntry c coll rid) f v)

/-- Row ids registered in a collection's bucket, in registration order. -/
def bucketKeys (c : Cache) (coll : CollName) : List RowId :=
  alkeys (getBucket c coll)

/-- Modelled from the spec: `ids_missing_field(collection_name,
field_name)` (the cache's `get_ids_to_read`) — "returns every registered row
id in the bucket whose field mapping lacks `field_name`". -/
def getIdsToRead (c : Cache) (coll : CollName) (f : FieldName) : List RowId :=
  ((getBucket c coll).filter (fun p => (alget p.2 f).isNone)).map (·.1)

/-- One remote `read` round trip through the Collection Proxy:
collection, ids requested, field names requested. -/
structure ReadCall where
  coll : CollName
  ids : List RowId
  fields : List FieldName
  deriving Repr, DecidableEq

/-- The remote database behind the Collection Proxy: what `object.read`
would return for a given collection, row and field. -/
abbrev DB := CollName → RowId → FieldName → RawValue

/-! ## Record identity (`Record.__eq__`, `Record.__hash__`, `Record.__int__`)

A `Record`'s identity is its collection name and row id
(`record.py` lines 205-215). -/

/-- A record handle's identity: `(self._object.name, self._id)`. -/
structure RecId where
  coll : CollName
  rid : RowId
  deriving Repr, DecidableEq

/-- Model of `Record.__eq__` applied to another record: the code compares
`other.id == self._id` only — the collection name is *not* compared. -/
def recordEq (self other : RecId) : Bool :=
  other.rid == self.rid

/-- Model of `Record.__eq__` applied to an integer: `self._id == other`. -/
def recordEqInt (self : RecId) (other : Int) : Bool :=
  (self.rid : Int) == other

/-- Model of `Record.__hash__`, which is `hash((self._object.name, self._id))`: a function of
exactly the pair.  We model the Python hash of the tuple by the tuple itself
(distinct tuples are assumed to hash apart, equal tuples hash equal). -/
def recordHash (self : RecId) : CollName × RowId :=
  (self.coll, self.rid)

/-! ## `RecordList.copy` (record.py lines 739-765) -/

/-- The possible Python values of `RecordList.copy`'s `new_cache` argument:
a `Cache` instance, a bool, an int, `None`, or a string. -/
inductive NewCacheArg where
  | cacheInst (c : Cache)
  | pyBool (b : Bool)
  | pyInt (n : Int)
  | pyNone
  | pyStr (s : String)
  deriving Repr, DecidableEq

/-- Python truthiness of a `new_cache` argument value. -/
def NewCacheArg.truthy : NewCacheArg → Bool
  | .cacheInst _ => true
  | .pyBool b => b
  | .pyInt n => n != 0
  | .pyNone => false
  | .pyStr s => s != ""

/-- Test for `new_cache is True` — identity with the singleton `True`, which only the
boolean `True` satisfies. -/
def NewCacheArg.isTrue : NewCacheArg → Bool
  | .pyBool true => true
  | _ => false

/-- The cache selection cascade of `RecordList.copy`:
`isinstance(new_cache, Cache)` → use it; `not new_cache` (any falsy value)
→ reuse the current cache; `new_cache is True` → `empty_cache(...)`;
otherwise `raise ValueError`. -/
def copyChooseCache (cur : Cache) (newCache : NewCacheArg) :
    Except String Cache :=
  match newCache with
  | .cacheInst c => .ok c
  | a =>
      if a.truthy = false then .ok cur
      else if a.isTrue then .ok emptyCache
      else .error "Wrong value for parametr new_cache"

/-- Model of `RecordList.copy` itself: choose the cache, then build
`get_record_list(self.object, ids=self.ids, cache=cache, ...)` — same ids,
registered in the chosen cache. -/
def recordListCopy (coll : CollName) (ids : List RowId) (cur : Cache)
    (newCache : NewCacheArg) : Except String (List RowId × Cache) :=
  match copyChooseCache cur newCache with
  | .error e => .error e
  | .ok cache => .ok (ids, registerIds cache coll ids)

/-! ## Record instances and memoized relation targets

A `Record` instance holds its collection, its row id and a private memo
(`self._related_objects`) of already-resolved relational targets
(record.py line 128 and lines 220-252).  A memoized target is Python
`False` (absent relation), another `Record`, or a `RecordList` of records. -/

mutual
/-- A `Record` instance: `(collection, row id, _related_objects memo)`. -/
inductive RecInst where
  | mk (coll : CollName) (rid : RowId) (memo : List (FieldName × RelTarget))

/-- A value of `Record._related_objects[name]`: `False`, a `Record`, or a
`RecordList` (collection plus its member records). -/
inductive RelTarget where
  | absent
  | one (r : RecInst)
  | many (coll : CollName) (elems : List RecInst)
end

/-- The `_related_objects` dictionary. -/
abbrev Memo := List (FieldName × RelTarget)

def RecInst.coll : RecInst → CollName
  | .mk c _ _ => c

def RecInst.rid : RecInst → RowId
  | .mk _ i _ => i

def RecInst.memo : RecInst → Memo
  | .mk _ _ m => m

/-! ## Column metadata (the Collection Proxy's `columns_info`)

`Modelled from the spec:` field metadata lives on the Collection Proxy
(`openerp_proxy/orm/object.py`, absent from the verified sources); per spec
section 6 it supplies `{'type': ..., 'relation': <target collection>}`. -/

/-- Declared metadata of one field: its type string (`"char"`, `"many2one"`,
`"one2many"`, ...) and, for relational fields, the target collection. -/
structure FieldInfo where
  ftype : String
  relation : CollName
  deriving Repr, DecidableEq

/-- The `columns_info` of one collection. -/
abbrev ColumnsInfo := List (FieldName × FieldInfo)

/-- Metadata for every collection. -/
abbrev Meta := CollName → ColumnsInfo

/-- Model of `rel_data[0] if isinstance(rel_data, collections.Iterable) else rel_data`
(record.py lines 227-229): the target row id inside a truthy many2one value.
Only truthy values reach this in `_get_many2one_rel_obj`. -/
def RawValue.relId : RawValue → RowId
  | .vpair i _ => i
  | .vids (i :: _) => i
  | .vids [] => 0
  | .vint n => n.toNat
  | .vstr _ => 0
  | .vfalse => 0

/-- The id list inside a one2many / many2many raw value. -/
def RawValue.relIds : RawValue → List RowId
  | .vids l => l
  | _ => []

/-! ## Field access (`Record._get_field`, record.py lines 254-296) -/

/-- The cache-fill phase of `Record._get_field` (lines 263-272): if `name`
is not in this row's cache entry, issue **one** read through the Collection
Proxy for `get_ids_to_read(name)` — every registered row missing `name` —
and write each returned row's value back (`cache_field`); otherwise do
nothing.  Returns the new cache and the list of remote calls issued. -/
def fetchField (db : DB) (c : Cache) (coll : CollName) (rid : RowId)
    (name : FieldName) : Cache × List ReadCall :=
  if (lookupField c coll rid name).isSome then (c, [])
  else
    let ids := getIdsToRead c coll name
    (ids.foldl (fun acc i => writeField acc coll i name (db coll i name)) c,
     [⟨coll, ids, [name]⟩])

/-- Model of `Record._get_many2one_rel_obj` (lines 220-239): memo hit returns the
memoized target; otherwise a truthy value is wrapped into a fresh `Record`
on the target collection (whose construction registers the target row id in
the shared cache), a falsy value memoizes `False`. -/
def getMany2oneRelObj (c : Cache) (memo : Memo) (relColl : CollName)
    (name : FieldName) (relData : RawValue) : RelTarget × Cache × Memo :=
  match alget memo name with
  | some t => (t, c, memo)
  | none =>
      if relData.truthy then
        let t := RelTarget.one (RecInst.mk relColl relData.relId [])
        (t, registerId c relColl relData.relId, alset memo name t)
      else
        (RelTarget.absent, c, alset memo name RelTarget.absent)

/-- Model of `Record._get_one2many_rel_obj` (lines 241-252): memo hit returns the
memoized target; otherwise the id list is wrapped into a fresh `RecordList`
on the target collection (whose construction registers every id in the
shared cache). -/
def getOne2manyRelObj (c : Cache) (memo : Memo) (relColl : CollName)
    (name : FieldName) (relData : RawValue) : RelTarget × Cache × Memo :=
  match alget memo name with
  | some t => (t, c, memo)
  | none =>
      let ids := relData.relIds
      let t := RelTarget.many relColl (ids.map fun i => RecInst.mk relColl i [])
      (t, registerIds c relColl ids, alset memo name t)

/-- A value produced by field access: a raw (scalar) value, or a resolved
relational target (`False` / `Record` / `RecordList`). -/
inductive PyRes where
  | raw (v : RawValue)
  | rel (t : RelTarget)

/-- Python truthiness of a field-access result (a `RecordList` is truthy
iff non-empty, via `__len__`). -/
def PyRes.truthy : PyRes → Bool
  | .raw v => v.truthy
  | .rel .absent => false
  | .rel (.one _) => true
  | .rel (.many _ es) => !es.isEmpty

/-- Model of `Record._get_field` (record.py lines 254-280): fill the cache on a miss
(one batched read), then return the cached value, wrapping it per the
declared field type.  The relation's target collection is
`self._columns_info[name]['relation']`.  (The final `self._data[name]`
lookup is total here because a registered row missing the field is always
part of the batch just read; unregistered rows never occur, since record
construction registers them.) -/
def getField (meta : Meta) (db : DB) (c : Cache) (memo : Memo)
    (coll : CollName) (rid : RowId) (ftype : String) (name : FieldName) :
    PyRes × Cache × Memo × List ReadCall :=
  let fc := fetchField db c coll rid name
  let data := (lookupField fc.1 coll rid name).getD .vfalse
  let relColl := ((alget (meta coll) name).map (·.relation)).getD ""
  if ftype = "many2one" then
    let r := getMany2oneRelObj fc.1 memo relColl name data
    (.rel r.1, r.2.1, r.2.2, fc.2)
  else if ftype = "one2many" ∨ ftype = "many2many" then
    let r := getOne2manyRelObj fc.1 memo relColl name data
    (.rel r.1, r.2.1, r.2.2, fc.2)
  else
    (.raw data, fc.1, memo, fc.2)

/-- Model of `Record.__getitem__` (record.py lines 283-296): `'id'` is answered
directly from the handle; an undeclared field name raises
`KeyError("No such field %s in object %s, %s")`; a declared field goes
through `_get_field` with its declared type. -/
def recordGetitem (meta : Meta) (db : DB) (c : Cache) (memo : Memo)
    (coll : CollName) (rid : RowId) (name : FieldName) :
    Except String (PyRes × Cache × Memo × List ReadCall) :=
  if name = "id" then
    .ok (.raw (.vint rid), c, memo, [])
  else
    match alget (meta coll) name with
    | none =>
        .error ("No such field " ++ name ++ " in object " ++ coll ++
                ", " ++ toString rid)
    | some fi => .ok (getField meta db c memo coll rid fi.ftype name)

/-! ## Further model definitions -/

/-- The raw bucket binding of a row: `some entry` iff the row id is
registered in the collection's bucket. -/
def getRow (c : Cache) (coll : CollName) (rid : RowId) : Option Entry :=
  alget (getBucket c coll) rid

/-- The write-back fold of `Record._get_field` (one `cache_field` call per
returned row of the batched read). -/
def writeBatch (db : DB) (coll : CollName) (name : FieldName)
    (ids : List RowId) (c : Cache) : Cache :=
  ids.foldl (fun acc i => writeField acc coll i name (db coll i name)) c

/-- The field mapping `Record.refresh` leaves behind for a row:
`self._data.clear()` followed by `self._data['id'] = self._id`
(record.py lines 315-316). -/
def idEntry (rid : RowId) : Entry := [("id", RawValue.vint (rid : Int))]

mutual
/-- Model of `Record.refresh` (record.py lines 309-328), cache effect:
clear this row's field mapping down to its id placeholder, then recursively
refresh every memoized relational target that is a `Record` or `RecordList`
(the memo itself is emptied; see `refreshedRec` for the resulting record). -/
def refreshRec (c : Cache) : RecInst → Cache
  | .mk coll rid memo => refreshMemo (setEntry c coll rid (idEntry rid)) memo

/-- Cache effect of walking `self._related_objects.values()` in
`Record.refresh`. -/
def refreshMemo (c : Cache) : List (FieldName × RelTarget) → Cache
  | [] => c
  | (_, t) :: rest => refreshMemo (refreshTarget c t) rest

/-- Cache effect of refreshing one memoized target: Python `False` is not a
`Record`/`RecordList` and is skipped by the `isinstance` check. -/
def refreshTarget (c : Cache) : RelTarget → Cache
  | .absent => c
  | .one r => refreshRec c r
  | .many _ elems => refreshElems c elems

/-- Model of `RecordList.refresh` (record.py lines 582-590): refresh every
member record. -/
def refreshElems (c : Cache) : List RecInst → Cache
  | [] => c
  | r :: rest => refreshElems (refreshRec c r) rest
end

/-- The record object returned by `Record.refresh` (it returns `self`, whose
`_related_objects` memo was reset to `{}`). -/
def refreshedRec (r : RecInst) : RecInst := .mk r.coll r.rid []

mutual
/-- All record identities reachable through a record's memo tree (itself
included): exactly the rows whose cache entries `Record.refresh` clears. -/
def touchedRec : RecInst → List (CollName × RowId)
  | .mk coll rid memo => (coll, rid) :: touchedMemo memo

def touchedMemo : List (FieldName × RelTarget) → List (CollName × RowId)
  | [] => []
  | (_, t) :: rest => touchedTarget t ++ touchedMemo rest

def touchedTarget : RelTarget → List (CollName × RowId)
  | .absent => []
  | .one r => touchedRec r
  | .many _ elems => touchedElems elems

def touchedElems : List RecInst → List (CollName × RowId)
  | [] => []
  | r :: rest => touchedRec r ++ touchedElems rest
end

/-! ## `RecordList.insert` (record.py lines 550-566) -/

/-- The possible Python values of the `item` argument of
`RecordList.insert`: a `Record`, an integer id, or anything else. -/
inductive InsertItem where
  | record (coll : CollName) (rid : RowId)
  | int (n : Nat)
  | other (s : String)
  deriving Repr, DecidableEq

/-- A `RecordList`: its collection, its shared cache, and its ordered
member records (identified by collection and row id). -/
structure RecordListState where
  coll : CollName
  cache : Cache
  recs : List RecId
  deriving Repr, DecidableEq

/-- Model of `RecordList.insert`: a `Record` is inserted directly; an
integer is passed to `self._object.read_records(item)` — which, called with
`fields=None` and `cache=None`, builds a `Record` backed by a **fresh**
empty cache (only the id registered, no read issued) — and anything else
fails the `assert isinstance(item, (Record, numbers.Integral))`.
Returns the updated list, the fresh cache created for an integer item (if
any), and the remote read calls issued (none in every branch). -/
def recordListInsert (L : RecordListState) (index : Nat) (item : InsertItem) :
    Except String (RecordListState × Option Cache × List ReadCall) :=
  match item with
  | .record coll rid =>
      .ok ({L with recs := L.recs.insertIdx index ⟨coll, rid⟩}, none, [])
  | .int n =>
      .ok ({L with recs := L.recs.insertIdx index ⟨L.coll, n⟩},
           some (registerId emptyCache L.coll n), [])
  | .other _ =>
      .error "Only Record or int instances could be added to list"

/-! ## `ObjectRecords.read_records` (record.py lines 950-981) -/

/-- Model of `ObjectRecords.read_records` when `ids` is a single integer:
`record = get_record(self, ids, context=context)` — the `cache` parameter
is **not** forwarded, so the record is backed by a fresh `empty_cache()`
with just its id registered; when `fields` is given, `record.read(fields)`
then reads those fields into that fresh cache (one remote call). -/
def readRecordsSingle (db : DB) (coll : CollName) (rid : RowId)
    (fields : Option (List FieldName)) (cacheArg : Option Cache) :
    RecId × Cache × List ReadCall :=
  let c0 := registerId emptyCache coll rid
  match fields with
  | none => (⟨coll, rid⟩, c0, [])
  | some fs =>
      (⟨coll, rid⟩,
       fs.foldl (fun acc f => writeField acc coll rid f (db coll rid f)) c0,
       [⟨coll, [rid], fs⟩])

/-- Model of `ObjectRecords.read_records` when `ids` is a list:
`get_record_list(self, ids, fields=fields, context=context)` — again the
`cache` parameter is **not** forwarded, so the list is backed by a fresh
`empty_cache()` with the ids registered. -/
def readRecordsList (coll : CollName) (ids : List RowId)
    (cacheArg : Option Cache) : List RowId × Cache :=
  (ids, registerIds emptyCache coll ids)

/-! ## `RecordList.mapped` (record.py lines 678-737)

The dotted path argument is modelled already split on `'.'` as a list of
field names. -/

/-- Modelled from the spec: `self._object.resolve_field_path(field)[-1]`
(a method of the Collection Proxy, absent from the verified sources)
follows the dotted path through the declared column metadata and yields,
for the terminal field, its relation's target collection — `none` when the
terminal field is not relational. -/
def resolveFieldPathRel (meta : Meta) (coll : CollName) :
    List FieldName → Option CollName
  | [] => none
  | [f] =>
      match alget (meta coll) f with
      | some fi =>
          if fi.ftype = "many2one" ∨ fi.ftype = "one2many" ∨
              fi.ftype = "many2many" then some fi.relation
          else none
      | none => none
  | f :: rest =>
      match alget (meta coll) f with
      | some fi => resolveFieldPathRel meta fi.relation rest
      | none => none

/-- One subscript step `val[f]` inside the `mapped` walker: only a record
value can be subscripted by a field name (anything else is a Python
`TypeError`, modelled as `none`); a failed lookup (`KeyError`) is also
`none`. -/
def walkNext (meta : Meta) (db : DB) (c : Cache) (f : FieldName) :
    PyRes → Option (PyRes × Cache × List ReadCall)
  | .rel (.one (.mk coll rid memo)) =>
      match recordGetitem meta db c memo coll rid f with
      | .error _ => none
      | .ok (v, c', _, calls) => some (v, c', calls)
  | _ => none

/-- The `get_field` walker inside `RecordList.mapped`:
`while fields and val: f = fields.pop(0); val = val[f]`.
A failing subscript is modelled as `none`. -/
def mappedWalk (meta : Meta) (db : DB) :
    PyRes → Cache → List FieldName → Option (PyRes × Cache × List ReadCall)
  | val, c, [] => some (val, c, [])
  | val, c, f :: rest =>
      if val.truthy = false then some (val, c, [])
      else
        match walkNext meta db c f val with
        | none => none
        | some (v, c', calls) =>
            match mappedWalk meta db v c' rest with
            | none => none
            | some (v', c'', calls') => some (v', c'', calls ++ calls')

/-- The result of `RecordList.mapped`: a plain Python list of raw values,
or a `RecordList` on the relation's target collection (identified by its
ordered member ids, which share the source list's cache). -/
inductive MappedRes where
  | scalars (vs : List RawValue)
  | rlist (coll : CollName) (ids : List RowId)
  deriving Repr, DecidableEq

/-- One accumulation step of `RecordList.mapped`'s result loop:
`if not val: continue`; `if isinstance(val, RecordList): res.extend(val)`
(no membership test); `elif val not in res: res.append(val)` — membership
in a `RecordList` result goes through `Record.__eq__` (row-id comparison),
membership in a plain list result is value equality.  Combinations that
would crash in Python (appending a record into a scalar result or a raw
value into a `RecordList` result, possible only when the declared metadata
disagrees with the data) are modelled as `none`. -/
def mappedStepT : MappedRes → PyRes → Option MappedRes
  | .rlist rc ids, .rel (.many _ elems) =>
      some (.rlist rc (ids ++ elems.map RecInst.rid))
  | .rlist rc ids, .rel (.one r) =>
      some (.rlist rc (if r.rid ∈ ids then ids else ids ++ [r.rid]))
  | .scalars vs, .raw v =>
      some (.scalars (if v ∈ vs then vs else vs ++ [v]))
  | _, _ => none

def mappedStep (res : MappedRes) (val : PyRes) : Option MappedRes :=
  if val.truthy = false then some res else mappedStepT res val

/-- The member loop of `RecordList.mapped`: walk the path for each member
record (members of a record list carry empty memos, as built by
`get_record_list`), then accumulate. -/
def mappedGo (meta : Meta) (db : DB) (coll : CollName)
    (path : List FieldName) :
    List RowId → MappedRes → Cache → List ReadCall →
      Option (MappedRes × Cache × List ReadCall)
  | [], res, c, calls => some (res, c, calls)
  | rid :: rest, res, c, calls =>
      match mappedWalk meta db (.rel (.one (.mk coll rid []))) c path with
      | none => none
      | some (val, c', wcalls) =>
          match mappedStep res val with
          | none => none
          | some res' => mappedGo meta db coll path rest res' c' (calls ++ wcalls)

/-- Model of `RecordList.mapped` (record.py lines 678-737): choose the
result container from the resolved terminal field (an empty `RecordList`
sharing this list's cache when the terminal field is relational, a plain
list otherwise), then fold the walker over the members. -/
def mapped (meta : Meta) (db : DB) (coll : CollName)
    (memberIds : List RowId) (c : Cache) (path : List FieldName) :
    Option (MappedRes × Cache × List ReadCall) :=
  let init : MappedRes :=
    match resolveFieldPathRel meta coll path with
    | some rc => .rlist rc []
    | none => .scalars []
  mappedGo meta db coll path memberIds init c []

/-! ## Pure (cache-free) specification of the mapped walk

Because every record reached during one `mapped` run carries an empty memo
and the cache only ever stores values that came from the database, the
value a walk produces is a pure function of the database.  These
definitions state that function; the refinement theorems below connect
them to the stateful model. -/

/-- The value `record[f]` produces, computed from the database alone. -/
def getFieldPure (meta : Meta) (db : DB) (coll : CollName) (rid : RowId)
    (f : FieldName) : Option PyRes :=
  if f = "id" then some (.raw (.vint (rid : Int)))
  else
    match alget (meta coll) f with
    | none => none
    | some fi =>
        let data := db coll rid f
        if fi.ftype = "many2one" then
          some (.rel (if data.truthy then
                        .one (.mk fi.relation data.relId [])
                      else .absent))
        else if fi.ftype = "one2many" ∨ fi.ftype = "many2many" then
          some (.rel (.many fi.relation
            (data.relIds.map fun i => RecInst.mk fi.relation i [])))
        else some (.raw data)

/-- One pure subscript step. -/
def pureNext (meta : Meta) (db : DB) (f : FieldName) :
    PyRes → Option PyRes
  | .rel (.one (.mk coll rid _)) => getFieldPure meta db coll rid f
  | _ => none

/-- The pure walker: same control flow as `mappedWalk`, no cache. -/
def walkPureVal (meta : Meta) (db : DB) :
    PyRes → List FieldName → Option PyRes
  | val, [] => some val
  | val, f :: rest =>
      if val.truthy = false then some val
      else
        match pureNext meta db f val with
        | none => none
        | some v => walkPureVal meta db v rest

/-- The pure member loop. -/
def mappedSpecGo (meta : Meta) (db : DB) (coll : CollName)
    (path : List FieldName) : List RowId → MappedRes → Option MappedRes
  | [], res => some res
  | rid :: rest, res =>
      match walkPureVal meta db (.rel (.one (.mk coll rid []))) path with
      | none => none
      | some val =>
          match mappedStep res val with
          | none => none
          | some res' => mappedSpecGo meta db coll path rest res'

/-- The pure specification of `mapped`. -/
def mappedSpec (meta : Meta) (db : DB) (coll : CollName)
    (memberIds : List RowId) (path : List FieldName) : Option MappedRes :=
  let init : MappedRes :=
    match resolveFieldPathRel meta coll path with
    | some rc => .rlist rc []
    | none => .scalars []
  mappedSpecGo meta db coll path memberIds init

/-- Agreement of a cache with the database: every cached field value is the
database's value (all cache contents originate from reads). -/
def CacheAgrees (db : DB) (c : Cache) : Prop :=
  ∀ coll rid f v, lookupField c coll rid f = some v → v = db coll rid f

/-- First-occurrence insertion into the scalar result list
(`elif val not in res: res.append(val)` on a plain list). -/
def scalarInsert (vs : List RawValue) (v : RawValue) : List RawValue :=
  if v ∈ vs then vs else vs ++ [v]

/-- One accumulation action on a `RecordList`-typed `mapped` result: a
single record appended through the membership test, or a whole member list
extended without one. -/
inductive RelAct where
  | single (i : RowId)
  | batch (ids : List RowId)
  deriving Repr, DecidableEq

/-- Apply one relational accumulation action to the result's id list. -/
def relApply (ids : List RowId) : RelAct → List RowId
  | .single i => if i ∈ ids then ids else ids ++ [i]
  | .batch l => ids ++ l

/-- The pure walked value of one member record. -/
def walkedVal (meta : Meta) (db : DB) (coll : CollName)
    (path : List FieldName) (rid : RowId) : Option PyRes :=
  walkPureVal meta db (.rel (.one (.mk coll rid []))) path

/-- The truthy scalar values produced by walking the members, in member
order (the values `mapped` accumulates into a scalar result). -/
def collectScalars (meta : Meta) (db : DB) (coll : CollName)
    (path : List FieldName) : List RowId → List RawValue
  | [] => []
  | rid :: rest =>
      match walkedVal meta db coll path rid with
      | some (.raw v) =>
          if v.truthy then v :: collectScalars meta db coll path rest
          else collectScalars meta db coll path rest
      | _ => collectScalars meta db coll path rest

/-- The truthy relational values produced by walking the members, in member
order, as accumulation actions. -/
def collectRels (meta : Meta) (db : DB) (coll : CollName)
    (path : List FieldName) : List RowId → List RelAct
  | [] => []
  | rid :: rest =>
      match walkedVal meta db coll path rid with
      | some (.rel (.one r)) => .single r.rid ::
          collectRels meta db coll path rest
      | some (.rel (.many _ elems)) =>
          if elems.isEmpty then collectRels meta db coll path rest
          else .batch (elems.map RecInst.rid) ::
            collectRels meta db coll path rest
      | _ => collectRels meta db coll path rest

/-! ## Concrete data used by witnesses and counterexamples -/

/-- Column metadata used by witnesses: a `partner` collection with a scalar
`name` field and a many2one `company_id` field. -/
def metaW : Meta := fun coll =>
  if coll = "partner" then
    [("name", ⟨"char", ""⟩), ("company_id", ⟨"many2one", "company"⟩)]
  else []

/-- Database used by witnesses. -/
def dbW : DB := fun _ i f =>
  if f = "name" then
    (if i = 2 then .vstr "B" else .vstr "A")
  else if f = "company_id" then .vpair 7 "ACME"
  else .vfalse

/-- A cache whose partner bucket registers rows 1 and 2, with no fields
fetched yet. -/
def cW : Cache := [("partner", [(1, []), (2, [])])]

/-- A cache whose partner bucket already holds `name` for rows 1 and 2. -/
def cWfetched : Cache :=
  [("partner", [(1, [("name", RawValue.vstr "A")]),
                (2, [("name", RawValue.vstr "B")])])]

/-- A record list over `cW`: partner rows 1 and 2. -/
def listW : RecordListState :=
  ⟨"partner", cW, [⟨"partner", 1⟩, ⟨"partner", 2⟩]⟩

/-- A cache with three registered partner rows and nothing fetched. -/
def cW3 : Cache := [("partner", [(1, []), (2, []), (3, [])])]

/-- A record with one memoized many2one target (partner 1 resolved its
`company_id` to company 7). -/
def recW : RecInst :=
  .mk "partner" 1 [("company_id", .one (.mk "company" 7 []))]

/-- A cache holding fetched data for partner 1 and company 7. -/
def cRefresh : Cache :=
  [("partner", [(1, [("name", RawValue.vstr "A"),
                     ("company_id", RawValue.vpair 7 "ACME")])]),
   ("company", [(7, [("name", RawValue.vstr "ACME")])])]

/-! ## Cache lemmas -/

theorem alget_mem {α β : Type} [DecidableEq α]
    (l : List (α × β)) (k : α) (v : β) (h : alget l k = some v) :
    (k, v) ∈ l := by
  induction l with
  | nil => simp [alget] at h
  | cons hd tl ih =>
      obtain ⟨k₀, v₀⟩ := hd
      by_cases hk : k₀ = k
      · subst hk
        have hv : v₀ = v := by simpa using h
        subst hv
        exact List.mem_cons_self _ _
      · simp only [alget_cons, if_neg hk] at h
        exact List.mem_cons_of_mem _ (ih h)

theorem getBucket_setEntry (c : Cache) (coll coll' : CollName) (rid : RowId)
    (e : Entry) :
    getBucket (setEntry c coll rid e) coll' =
      if coll = coll' then alset (getBucket c coll) rid e
      else getBucket c coll' := by
  by_cases h : coll = coll'
  · subst h; simp [getBucket, setEntry, alget_alset]
  · simp [getBucket, setEntry, alget_alset, h]

theorem getEntry_setEntry (c : Cache) (coll coll' : CollName)
    (rid rid' : RowId) (e : Entry) :
    getEntry (setEntry c coll rid e) coll' rid' =
      if coll = coll' ∧ rid = rid' then e else getEntry c coll' rid' := by
  by_cases hc : coll = coll'
  · subst hc
    by_cases hr : rid = rid'
    · subst hr; simp [getEntry, getBucket_setEntry, alget_alset]
    · simp [getEntry, getBucket_setEntry, alget_alset, hr]
  · simp [getEntry, getBucket_setEntry, hc]

theorem lookupField_writeField (c : Cache)
    (coll coll' : CollName) (rid rid' : RowId) (f f' : FieldName)
    (v : RawValue) :
    lookupField (writeField c coll rid f v) coll' rid' f' =
      if coll = coll' ∧ rid = rid' ∧ f = f' then some v
      else lookupField c coll' rid' f' := by
  by_cases hc : coll = coll' <;> by_cases hr : rid = rid'
  · subst hc; subst hr
    by_cases hf : f = f'
    · subst hf; simp [lookupField, writeField, getEntry_setEntry]
    · simp [lookupField, writeField, getEntry_setEntry, alget_alset, hf]
  · simp [lookupField, writeField, getEntry_setEntry, hc, hr]
  · simp [lookupField, writeField, getEntry_setEntry, hc]
  · simp [lookupField, writeField, getEntry_setEntry, hc]

/-- Registering a row id never changes the cached-field view of the store:
a fresh registration only installs an empty field mapping. -/
theorem lookupField_registerId (c : Cache) (coll coll' : CollName)
    (rid rid' : RowId) (f : FieldName) :
    lookupField (registerId c coll rid) coll' rid' f =
      lookupField c coll' rid' f := by
  by_cases hreg : (alget (getBucket c coll) rid).isSome
  · rw [registerId, if_pos hreg]
  · rw [registerId, if_neg hreg]
    by_cases hc : coll = coll'
    · subst hc
      by_cases hr : rid = rid'
      · subst hr
        have hnone : alget (getBucket c coll) rid = none := by
          cases h : alget (getBucket c coll) rid with
          | none => rfl
          | some b => rw [h] at hreg; simp at hreg
        have h1 : getEntry (setEntry c coll rid []) coll rid = [] := by
          rw [getEntry_setEntry]; simp
        have h2 : getEntry c coll rid = [] := by
          rw [getEntry, hnone]; rfl
        rw [lookupField, lookupField, h1, h2]
      · rw [lookupField, lookupField, getEntry_setEntry]
        simp [hr]
    · rw [lookupField, lookupField, getEntry_setEntry]
      simp [hc]

theorem lookupField_registerIds (c : Cache) (coll coll' : CollName)
    (ids : List RowId) (rid' : RowId) (f : FieldName) :
    lookupField (registerIds c coll ids) coll' rid' f =
      lookupField c coll' rid' f := by
  induction ids generalizing c with
  | nil => rfl
  | cons i rest ih =>
      show lookupField (registerIds (registerId c coll i) coll rest) coll' rid' f = _
      rw [ih, lookupField_registerId]

theorem writeBatch_nil (db : DB) (coll : CollName) (name : FieldName)
    (c : Cache) : writeBatch db coll name [] c = c := rfl

theorem writeBatch_cons (db : DB) (coll : CollName) (name : FieldName)
    (i : RowId) (rest : List RowId) (c : Cache) :
    writeBatch db coll name (i :: rest) c =
      writeBatch db coll name rest
        (writeField c coll i name (db coll i name)) := rfl

theorem lookupField_writeBatch_notin (db : DB) (c : Cache)
    (coll coll' : CollName) (name f' : FieldName) (ids : List RowId)
    (rid' : RowId)
    (h : ¬(coll = coll' ∧ rid' ∈ ids ∧ name = f')) :
    lookupField (writeBatch db coll name ids c) coll' rid' f' =
      lookupField c coll' rid' f' := by
  induction ids generalizing c with
  | nil => rfl
  | cons i rest ih =>
      have hrest : ¬(coll = coll' ∧ rid' ∈ rest ∧ name = f') := by
        rintro ⟨h1, h2, h3⟩
        exact h ⟨h1, List.mem_cons_of_mem _ h2, h3⟩
      have hhead : ¬(coll = coll' ∧ i = rid' ∧ name = f') := by
        rintro ⟨h1, h2, h3⟩
        refine h ⟨h1, ?_, h3⟩
        rw [← h2]
        exact List.mem_cons_self _ _
      rw [writeBatch_cons, ih _ hrest, lookupField_writeField]
      simp [hhead]

theorem lookupField_writeBatch_mem (db : DB) (c : Cache)
    (coll : CollName) (name : FieldName) (ids : List RowId) (rid : RowId)
    (h : rid ∈ ids) :
    lookupField (writeBatch db coll name ids c) coll rid name =
      some (db coll rid name) := by
  induction ids generalizing c with
  | nil => simp at h
  | cons i rest ih =>
      rw [writeBatch_cons]
      by_cases hmem : rid ∈ rest
      · exact ih _ hmem
      · have hi : i = rid := by
          rcases List.mem_cons.mp h with h' | h'
          · exact h'.symm
          · exact absurd h' hmem
        subst hi
        rw [lookupField_writeBatch_notin]
        · rw [lookupField_writeField]
          simp
        · rintro ⟨-, h2, -⟩
          exact hmem h2

/-- Under duplicate-free keys, the binding found by `alget` is the unique
binding present in the list. -/
theorem alget_eq_some_of_nodup {α β : Type} [DecidableEq α]
    (l : List (α × β)) (k : α) (v : β)
    (hnd : (alkeys l).Nodup) (hmem : (k, v) ∈ l) :
    alget l k = some v := by
  induction l with
  | nil => simp at hmem
  | cons hd tl ih =>
      obtain ⟨k₀, v₀⟩ := hd
      rw [show alkeys ((k₀, v₀) :: tl) = k₀ :: alkeys tl from rfl,
          List.nodup_cons] at hnd
      rcases List.mem_cons.mp hmem with h | h
      · rw [Prod.mk.injEq] at h
        obtain ⟨rfl, rfl⟩ := h
        simp
      · have hk : k₀ ≠ k := by
          intro hk
          subst hk
          exact hnd.1 (by simpa [alkeys] using List.mem_map_of_mem (·.1) h)
        simp [hk, ih hnd.2 h]

/-- Membership in `getIdsToRead` (the batching set) is exactly: registered
in the bucket and missing the field — provided the bucket has no duplicate
row keys (Python dict keys are unique). -/
theorem mem_getIdsToRead_iff (c : Cache) (coll : CollName) (f : FieldName)
    (i : RowId) (hnd : (bucketKeys c coll).Nodup) :
    i ∈ getIdsToRead c coll f ↔
      i ∈ bucketKeys c coll ∧ lookupField c coll i f = none := by
  constructor
  · intro h
    simp only [getIdsToRead, List.mem_map, List.mem_filter] at h
    obtain ⟨⟨j, e⟩, ⟨hmem, hmiss⟩, hj⟩ := h
    subst hj
    refine ⟨List.mem_map_of_mem (·.1) hmem, ?_⟩
    have hget : alget (getBucket c coll) j = some e :=
      alget_eq_some_of_nodup _ _ _ hnd hmem
    simp only [lookupField, getEntry, hget, Option.getD_some]
    simpa using hmiss
  · rintro ⟨hmem, hmiss⟩
    simp only [bucketKeys, alkeys, List.mem_map] at hmem
    obtain ⟨⟨j, e⟩, hmem', hj⟩ := hmem
    subst hj
    have hget : alget (getBucket c coll) j = some e :=
      alget_eq_some_of_nodup _ _ _ hnd hmem'
    simp only [lookupField, getEntry, hget, Option.getD_some] at hmiss
    simp only [getIdsToRead, List.mem_map, List.mem_filter]
    exact ⟨(j, e), ⟨hmem', by simpa using hmiss⟩, rfl⟩

/-- A registered row missing a field always belongs to the batch scheduled
by a miss on that field (no duplicate-key assumption needed). -/
theorem self_mem_getIdsToRead (c : Cache) (coll : CollName) (f : FieldName)
    (rid : RowId)
    (hreg : (alget (getBucket c coll) rid).isSome)
    (hmiss : lookupField c coll rid f = none) :
    rid ∈ getIdsToRead c coll f := by
  cases h : alget (getBucket c coll) rid with
  | none => rw [h] at hreg; simp at hreg
  | some e =>
      have hmem : (rid, e) ∈ getBucket c coll := alget_mem _ _ _ h
      simp only [getIdsToRead, List.mem_map, List.mem_filter]
      refine ⟨(rid, e), ⟨hmem, ?_⟩, rfl⟩
      simp only [lookupField, getEntry, h, Option.getD_some] at hmiss
      simpa using hmiss

/-! ## Relational wrapping preserves the cached-field view -/

theorem lookupField_getMany2oneRelObj (c : Cache) (memo : Memo)
    (relColl : CollName) (name : FieldName) (relData : RawValue)
    (coll' : CollName) (rid' : RowId) (f' : FieldName) :
    lookupField (getMany2oneRelObj c memo relColl name relData).2.1
        coll' rid' f' = lookupField c coll' rid' f' := by
  unfold getMany2oneRelObj
  cases alget memo name with
  | some t => rfl
  | none =>
      by_cases ht : relData.truthy
      · simp [ht, lookupField_registerId]
      · simp [ht]

theorem lookupField_getOne2manyRelObj (c : Cache) (memo : Memo)
    (relColl : CollName) (name : FieldName) (relData : RawValue)
    (coll' : CollName) (rid' : RowId) (f' : FieldName) :
    lookupField (getOne2manyRelObj c memo relColl name relData).2.1
        coll' rid' f' = lookupField c coll' rid' f' := by
  unfold getOne2manyRelObj
  cases alget memo name with
  | some t => rfl
  | none => simp [lookupField_registerIds]

/-- Concatenation of strings is associative (via the underlying data). -/
theorem strAppendAssoc (a b c : String) : a ++ b ++ c = a ++ (b ++ c) := by
  apply String.ext
  simp [String.data_append]

/-! ## Claim theorems (first batch) -/

/-- C3 (code bug evaluation): the claim states two handles are equal iff
collection name *and* row id match, but `Record.__eq__` compares only the
row ids, so `R(res.partner, 5) == R(res.users, 5)` evaluates to `True`
although the collections differ — and, since `Record.__hash__` hashes
`(collection, id)`, the two equal handles do not hash alike, violating the
eq/hash contract `Record` itself relies on.  Equality with the bare
integer id does hold. -/
theorem c3_record_eq_code_bug :
    recordEq ⟨"res.partner", 5⟩ ⟨"res.users", 5⟩ = true ∧
    ("res.partner" : CollName) ≠ "res.users" ∧
    recordHash ⟨"res.partner", 5⟩ ≠ recordHash ⟨"res.users", 5⟩ ∧
    recordEqInt ⟨"res.partner", 5⟩ 5 = true := by
  decide

/-- C10: dictionary access `r['id']` returns the handle's row id directly:
it succeeds for every metadata table (also when `'id'` is not a declared
column), issues no remote read, and leaves cache and memo unchanged. -/
theorem c10_getitem_id_direct (meta : Meta) (db : DB) (c : Cache)
    (memo : Memo) (coll : CollName) (rid : RowId) :
    recordGetitem meta db c memo coll rid "id" =
      .ok (.raw (.vint (rid : Int)), c, memo, []) := by
  simp [recordGetitem]

/-- C8: accessing an undeclared field name (other than `'id'`) through
`Record.__getitem__` raises a lookup error whose message names both the
field and the collection; no value is ever silently returned. -/
theorem c8_unknown_field_error (meta : Meta) (db : DB) (c : Cache)
    (memo : Memo) (coll : CollName) (rid : RowId) (name : FieldName)
    (hname : name ≠ "id") (hundecl : alget (meta coll) name = none) :
    ∃ msg, recordGetitem meta db c memo coll rid name = .error msg ∧
      (∃ pre post, msg = pre ++ name ++ post) ∧
      (∃ pre post, msg = pre ++ coll ++ post) := by
  refine ⟨"No such field " ++ name ++ " in object " ++ coll ++ ", " ++
            toString rid, ?_, ?_, ?_⟩
  · simp [recordGetitem, hname, hundecl]
  · exact ⟨"No such field ",
           " in object " ++ coll ++ ", " ++ toString rid,
           by simp [strAppendAssoc]⟩
  · exact ⟨"No such field " ++ name ++ " in object ",
           ", " ++ toString rid,
           by simp [strAppendAssoc]⟩

/-- Witness for C8 at a concrete unknown field. -/
theorem c8_witness :
    (("foo" : FieldName) ≠ "id") ∧
    alget (metaW "partner") "foo" = none ∧
    (∃ msg, recordGetitem metaW dbW cW [] "partner" 1 "foo" = .error msg ∧
      (∃ pre post, msg = pre ++ "foo" ++ post) ∧
      (∃ pre post, msg = pre ++ "partner" ++ post)) :=
  ⟨by decide, by decide,
   c8_unknown_field_error metaW dbW cW [] "partner" 1 "foo"
     (by decide) (by decide)⟩

/-- C6 counterexample: the claim says every `new_cache` value other than
`False`, `True` or a `Cache` instance raises an invalid-argument error, but
`None` (falsy, none of the three) is accepted by the `elif not new_cache`
branch and the copy silently reuses the current store. -/
theorem c6_counterexample :
    recordListCopy "partner" [1, 2] cW .pyNone = .ok ([1, 2], cW) ∧
    ∀ e, recordListCopy "partner" [1, 2] cW .pyNone ≠ .error e := by
  constructor
  · rfl
  · intro e h
    have h1 : recordListCopy "partner" [1, 2] cW .pyNone = .ok ([1, 2], cW) := rfl
    rw [h1] at h
    exact Except.noConfusion h

/-- C6 (amended): `RecordList.copy`'s cache selection — a `Cache` instance
is used directly; any *falsy* value (not just `False`) reuses the current
store; the boolean `True` builds a fresh empty store; any truthy value that
is neither `True` nor a `Cache` instance raises `ValueError`.  The copy
always keeps the same member ids. -/
theorem c6_copy_new_cache_policy (coll : CollName) (ids : List RowId)
    (cur : Cache) :
    (∀ c₀, recordListCopy coll ids cur (.cacheInst c₀) =
        .ok (ids, registerIds c₀ coll ids)) ∧
    (∀ a : NewCacheArg, a.truthy = false →
        recordListCopy coll ids cur a = .ok (ids, registerIds cur coll ids)) ∧
    recordListCopy coll ids cur (.pyBool true) =
      .ok (ids, registerIds emptyCache coll ids) ∧
    (∀ a : NewCacheArg, a.truthy = true → a.isTrue = false →
        (∀ c₀, a ≠ .cacheInst c₀) →
        recordListCopy coll ids cur a =
          .error "Wrong value for parametr new_cache") := by
  refine ⟨fun c₀ => rfl, ?_, rfl, ?_⟩
  · intro a ha
    cases a <;>
      simp_all [recordListCopy, copyChooseCache, NewCacheArg.truthy]
  · intro a ha hb hno
    cases a with
    | cacheInst c₀ => exact absurd rfl (hno c₀)
    | pyBool b =>
        cases b
        · simp [NewCacheArg.truthy] at ha
        · simp [NewCacheArg.isTrue] at hb
    | pyInt n =>
        simp_all [recordListCopy, copyChooseCache, NewCacheArg.truthy,
                  NewCacheArg.isTrue]
    | pyNone => simp [NewCacheArg.truthy] at ha
    | pyStr s =>
        simp_all [recordListCopy, copyChooseCache, NewCacheArg.truthy,
                  NewCacheArg.isTrue]

/-- Witness for C6 (amended) at a concrete truthy non-`True` value. -/
theorem c6_witness :
    recordListCopy "partner" [1] cW3 (.pyInt 7) =
      .error "Wrong value for parametr new_cache" :=
  (c6_copy_new_cache_policy "partner" [1] cW3).2.2.2 (.pyInt 7)
    (by decide) (by decide) (fun c₀ h => NewCacheArg.noConfusion h)

/-- C5 counterexample: inserting the bare integer id 7 into a list over a
cache whose partner bucket registers rows 1 and 2 leaves the list's own
bucket unchanged (7 is *not* registered there, contrary to the claimed
invariant); the materialized record is backed by a separate fresh cache,
and no read at all is issued (so the record is a placeholder, not "fully
read"). -/
theorem c5_counterexample :
    recordListInsert listW 0 (.int 7) =
      .ok (⟨"partner", cW, [⟨"partner", 7⟩, ⟨"partner", 1⟩, ⟨"partner", 2⟩]⟩,
           some [("partner", [(7, [])])], []) ∧
    7 ∉ bucketKeys cW "partner" ∧
    bucketKeys cW "partner" = [1, 2] := by
  refine ⟨rfl, by decide, by decide⟩

/-- C5 (amended): `RecordList.insert` accepts a `Record` (inserted as-is) or
an integer id (wrapped by `read_records` into a record holding a *fresh*
empty cache with only the id registered — no read is issued and the list's
own cache is untouched); any other item type is rejected by the assertion.
In every successful branch the list's own Cache Store is unchanged and no
remote call happens. -/
theorem c5_insert_behaviour (L : RecordListState) (index : Nat) :
    (∀ coll rid, recordListInsert L index (.record coll rid) =
        .ok ({L with recs := L.recs.insertIdx index ⟨coll, rid⟩}, none, [])) ∧
    (∀ n, recordListInsert L index (.int n) =
        .ok ({L with recs := L.recs.insertIdx index ⟨L.coll, n⟩},
             some (registerId emptyCache L.coll n), [])) ∧
    (∀ s, recordListInsert L index (.other s) =
        .error "Only Record or int instances could be added to list") ∧
    (∀ item res c₀ calls,
        recordListInsert L index item = .ok (res, c₀, calls) →
        res.cache = L.cache ∧ calls = []) := by
  refine ⟨fun coll rid => rfl, fun n => rfl, fun s => rfl, ?_⟩
  intro item res c₀ calls h
  cases item with
  | record coll rid =>
      simp only [recordListInsert, Except.ok.injEq, Prod.mk.injEq] at h
      obtain ⟨h1, -, h3⟩ := h
      exact ⟨by rw [← h1], h3.symm⟩
  | int n =>
      simp only [recordListInsert, Except.ok.injEq, Prod.mk.injEq] at h
      obtain ⟨h1, -, h3⟩ := h
      exact ⟨by rw [← h1], h3.symm⟩
  | other s => exact Except.noConfusion h

/-- Witness for C5 (amended): inserting a record and an unsupported item
into a concrete list. -/
theorem c5_witness :
    recordListInsert listW 0 (.other "junk") =
      .error "Only Record or int instances could be added to list" :=
  (c5_insert_behaviour listW 0).2.2.1 "junk"

/-- C9 counterexample: the claim says the supplied cache is honored when
`ids` is a list, but the list branch of `read_records` never forwards its
`cache` argument either — the resulting list is backed by a fresh cache
containing none of the supplied cache's data. -/
theorem c9_counterexample :
    readRecordsList "partner" [5] (some cWfetched) =
      ([5], [("partner", [(5, [])])]) ∧
    [("partner", [(5, [])])] ≠ cWfetched := by
  refine ⟨rfl, by decide⟩

/-- C9 (amended): `read_records` silently ignores its `cache` argument in
*both* branches: a single integer id yields a record backed by a freshly
created cache with just its id registered (plus the requested fields when
`fields` is given), and a list of ids yields a list backed by a freshly
created cache with the ids registered. -/
theorem c9_read_records_cache_ignored (db : DB) (coll : CollName)
    (rid : RowId) (ids : List RowId) (fields : Option (List FieldName))
    (cacheArg : Option Cache) :
    readRecordsSingle db coll rid fields cacheArg =
      readRecordsSingle db coll rid fields none ∧
    (readRecordsSingle db coll rid none cacheArg).2.1 =
      registerId emptyCache coll rid ∧
    readRecordsList coll ids cacheArg = readRecordsList coll ids none ∧
    (readRecordsList coll ids cacheArg).2 = registerIds emptyCache coll ids :=
  ⟨rfl, rfl, rfl, rfl⟩

/-- C1: on a field miss (declared field `name`, absent from the registered
row's cache entry), `Record.__getitem__` issues exactly one batched read
through the Collection Proxy, whose id set is precisely every row id
registered in the collection's bucket that is missing the field (the
requesting row included, but not only it), and writes every returned row's
value back into the cache before producing the requesting row's value
(returned directly for scalar field types). -/
theorem c1_field_miss_batched_read (meta : Meta) (db : DB) (c : Cache)
    (memo : Memo) (coll : CollName) (rid : RowId) (name : FieldName)
    (fi : FieldInfo)
    (hname : name ≠ "id")
    (hdecl : alget (meta coll) name = some fi)
    (hreg : (getRow c coll rid).isSome = true)
    (hmiss : lookupField c coll rid name = none)
    (hnd : (bucketKeys c coll).Nodup) :
    ∃ res c' memo',
      recordGetitem meta db c memo coll rid name =
        .ok (res, c', memo', [⟨coll, getIdsToRead c coll name, [name]⟩]) ∧
      rid ∈ getIdsToRead c coll name ∧
      (∀ i, i ∈ getIdsToRead c coll name ↔
          i ∈ bucketKeys c coll ∧ lookupField c coll i name = none) ∧
      (∀ i ∈ getIdsToRead c coll name,
          lookupField c' coll i name = some (db coll i name)) ∧
      (fi.ftype ≠ "many2one" → fi.ftype ≠ "one2many" →
        fi.ftype ≠ "many2many" → res = .raw (db coll rid name)) := by
  have hcond : ¬((lookupField c coll rid name).isSome = true) := by
    rw [hmiss]; simp
  have hfetch : fetchField db c coll rid name =
      (writeBatch db coll name (getIdsToRead c coll name) c,
       [⟨coll, getIdsToRead c coll name, [name]⟩]) := by
    rw [fetchField, if_neg hcond]; rfl
  have hmemrid : rid ∈ getIdsToRead c coll name :=
    self_mem_getIdsToRead c coll name rid hreg hmiss
  have hdata : lookupField (writeBatch db coll name
      (getIdsToRead c coll name) c) coll rid name =
      some (db coll rid name) :=
    lookupField_writeBatch_mem db c coll name _ rid hmemrid
  have hiff := fun i => mem_getIdsToRead_iff c coll name i hnd
  have hpost : ∀ i ∈ getIdsToRead c coll name,
      lookupField (writeBatch db coll name (getIdsToRead c coll name) c)
        coll i name = some (db coll i name) :=
    fun i hi => lookupField_writeBatch_mem db c coll name _ i hi
  simp only [recordGetitem, if_neg hname, hdecl, getField, hfetch,
             hdata, Option.getD_some]
  by_cases h1 : fi.ftype = "many2one"
  · simp only [if_pos h1]
    refine ⟨_, _, _, rfl, hmemrid, hiff, ?_, fun hno _ _ => absurd h1 hno⟩
    intro i hi
    rw [lookupField_getMany2oneRelObj]
    exact hpost i hi
  · by_cases h2 : fi.ftype = "one2many" ∨ fi.ftype = "many2many"
    · simp only [if_neg h1, if_pos h2]
      refine ⟨_, _, _, rfl, hmemrid, hiff, ?_, ?_⟩
      · intro i hi
        rw [lookupField_getOne2manyRelObj]
        exact hpost i hi
      · intro _ hno2 hno3
        rcases h2 with h2 | h2
        · exact absurd h2 hno2
        · exact absurd h2 hno3
    · simp only [if_neg h1, if_neg h2]
      exact ⟨_, _, _, rfl, hmemrid, hiff, hpost, fun _ _ _ => rfl⟩

/-- Witness for C1: in the bucket `partner → {1: {}, 2: {}}`, the first
access of `name` on row 1 reads `[1, 2]` in one call and fills both
entries. -/
theorem c1_witness :
    ("name" : FieldName) ≠ "id" ∧
    ∃ res c' memo',
      recordGetitem metaW dbW cW [] "partner" 1 "name" =
        .ok (res, c', memo',
             [⟨"partner", getIdsToRead cW "partner" "name", ["name"]⟩]) ∧
      1 ∈ getIdsToRead cW "partner" "name" ∧
      (∀ i, i ∈ getIdsToRead cW "partner" "name" ↔
          i ∈ bucketKeys cW "partner" ∧
          lookupField cW "partner" i "name" = none) ∧
      (∀ i ∈ getIdsToRead cW "partner" "name",
          lookupField c' "partner" i "name" =
            some (dbW "partner" i "name")) ∧
      ((⟨"char", ""⟩ : FieldInfo).ftype ≠ "many2one" →
        (⟨"char", ""⟩ : FieldInfo).ftype ≠ "one2many" →
        (⟨"char", ""⟩ : FieldInfo).ftype ≠ "many2many" →
        res = .raw (dbW "partner" 1 "name")) :=
  ⟨by decide,
   c1_field_miss_batched_read metaW dbW cW [] "partner" 1 "name"
     ⟨"char", ""⟩ (by decide) (by decide) (by decide) (by decide)
     (by decide)⟩

/-- C2: when the field is already present in the row's cache entry,
`Record.__getitem__` issues no remote read at all, and the cached-field
view of the store is left completely unchanged (for a scalar field the
call returns exactly the cached value and touches neither cache nor
memo). -/
theorem c2_field_hit_no_read (meta : Meta) (db : DB) (c : Cache)
    (memo : Memo) (coll : CollName) (rid : RowId) (name : FieldName)
    (fi : FieldInfo) (v : RawValue)
    (hname : name ≠ "id")
    (hdecl : alget (meta coll) name = some fi)
    (hhit : lookupField c coll rid name = some v) :
    ∃ res c' memo',
      recordGetitem meta db c memo coll rid name =
        .ok (res, c', memo', []) ∧
      (∀ coll' i f', lookupField c' coll' i f' = lookupField c coll' i f') ∧
      (fi.ftype ≠ "many2one" → fi.ftype ≠ "one2many" →
        fi.ftype ≠ "many2many" →
        res = .raw v ∧ c' = c ∧ memo' = memo) := by
  have hcond : (lookupField c coll rid name).isSome = true := by
    rw [hhit]; rfl
  have hfetch : fetchField db c coll rid name = (c, []) := by
    rw [fetchField, if_pos hcond]
  simp only [recordGetitem, if_neg hname, hdecl, getField, hfetch,
             hhit, Option.getD_some]
  by_cases h1 : fi.ftype = "many2one"
  · simp only [if_pos h1]
    exact ⟨_, _, _, rfl,
           fun coll' i f' =>
             lookupField_getMany2oneRelObj c memo _ name v coll' i f',
           fun hno _ _ => absurd h1 hno⟩
  · by_cases h2 : fi.ftype = "one2many" ∨ fi.ftype = "many2many"
    · simp only [if_neg h1, if_pos h2]
      refine ⟨_, _, _, rfl,
              fun coll' i f' =>
                lookupField_getOne2manyRelObj c memo _ name v coll' i f',
              ?_⟩
      intro _ hno2 hno3
      rcases h2 with h2 | h2
      · exact absurd h2 hno2
      · exact absurd h2 hno3
    · simp only [if_neg h1, if_neg h2]
      exact ⟨_, _, _, rfl, fun _ _ _ => rfl, fun _ _ _ => ⟨rfl, rfl, rfl⟩⟩

/-- Witness for C2: with `name` already cached for partner rows 1 and 2, a
second access on row 2 performs zero reads and changes nothing. -/
theorem c2_witness :
    lookupField cWfetched "partner" 2 "name" = some (RawValue.vstr "B") ∧
    ∃ res c' memo',
      recordGetitem metaW dbW cWfetched [] "partner" 2 "name" =
        .ok (res, c', memo', []) ∧
      (∀ coll' i f', lookupField c' coll' i f' =
          lookupField cWfetched coll' i f') ∧
      ((⟨"char", ""⟩ : FieldInfo).ftype ≠ "many2one" →
        (⟨"char", ""⟩ : FieldInfo).ftype ≠ "one2many" →
        (⟨"char", ""⟩ : FieldInfo).ftype ≠ "many2many" →
        res = .raw (RawValue.vstr "B") ∧ c' = cWfetched ∧
        memo' = ([] : Memo)) :=
  ⟨by decide,
   c2_field_hit_no_read metaW dbW cWfetched [] "partner" 2 "name"
     ⟨"char", ""⟩ (RawValue.vstr "B") (by decide) (by decide) (by decide)⟩

/-! ## Refresh: recursive invalidation (C7) -/

theorem getRow_setEntry (c : Cache) (coll coll' : CollName)
    (rid rid' : RowId) (e : Entry) :
    getRow (setEntry c coll rid e) coll' rid' =
      if coll = coll' ∧ rid = rid' then some e else getRow c coll' rid' := by
  by_cases hc : coll = coll'
  · subst hc
    by_cases hr : rid = rid'
    · subst hr; simp [getRow, getBucket_setEntry, alget_alset]
    · simp [getRow, getBucket_setEntry, alget_alset, hr]
  · simp [getRow, getBucket_setEntry, hc]

/-- Bucket-binding characterization of `Record.refresh`, for all four
mutually recursive refresh functions at once (strong induction on size):
a refresh pass resets exactly the rows reachable through the memo tree to
the `{'id': id}` placeholder and leaves every other binding alone. -/
theorem refresh_char_aux : ∀ n : Nat,
    (∀ r : RecInst, sizeOf r ≤ n → ∀ c coll' i',
        getRow (refreshRec c r) coll' i' =
          if (coll', i') ∈ touchedRec r then some (idEntry i')
          else getRow c coll' i') ∧
    (∀ m : List (FieldName × RelTarget), sizeOf m ≤ n → ∀ c coll' i',
        getRow (refreshMemo c m) coll' i' =
          if (coll', i') ∈ touchedMemo m then some (idEntry i')
          else getRow c coll' i') ∧
    (∀ t : RelTarget, sizeOf t ≤ n → ∀ c coll' i',
        getRow (refreshTarget c t) coll' i' =
          if (coll', i') ∈ touchedTarget t then some (idEntry i')
          else getRow c coll' i') ∧
    (∀ l : List RecInst, sizeOf l ≤ n → ∀ c coll' i',
        getRow (refreshElems c l) coll' i' =
          if (coll', i') ∈ touchedElems l then some (idEntry i')
          else getRow c coll' i') := by
  intro n
  induction n using Nat.strong_induction_on with
  | _ n ih =>
    refine ⟨?_, ?_, ?_, ?_⟩
    · intro r hr c coll' i'
      cases r with
      | mk coll rid memo =>
          have hlt : sizeOf memo < n := by
            have := RecInst.mk.sizeOf_spec coll rid memo
            omega
          rw [refreshRec, (ih (sizeOf memo) hlt).2.1 memo le_rfl,
              getRow_setEntry, touchedRec]
          by_cases h1 : (coll', i') ∈ touchedMemo memo
          · simp [h1]
          · by_cases h2 : coll = coll' ∧ rid = i'
            · obtain ⟨rfl, rfl⟩ := h2
              simp [h1]
            · have hne : ((coll', i') : CollName × RowId) ≠ (coll, rid) := by
                simp only [Ne, Prod.mk.injEq]
                rintro ⟨rfl, rfl⟩
                exact h2 ⟨rfl, rfl⟩
              simp [h1, h2, hne]
    · intro m hm c coll' i'
      cases m with
      | nil => simp [refreshMemo, touchedMemo]
      | cons hd rest =>
          obtain ⟨f, t⟩ := hd
          have hlt_t : sizeOf t < n := by
            have h1 := List.cons.sizeOf_spec (f, t) rest
            have h2 := Prod.mk.sizeOf_spec f t
            omega
          have hlt_rest : sizeOf rest < n := by
            have h1 := List.cons.sizeOf_spec (f, t) rest
            omega
          rw [refreshMemo, (ih (sizeOf rest) hlt_rest).2.1 rest le_rfl,
              (ih (sizeOf t) hlt_t).2.2.1 t le_rfl, touchedMemo]
          by_cases h1 : (coll', i') ∈ touchedMemo rest <;>
            by_cases h2 : (coll', i') ∈ touchedTarget t <;>
              simp [h1, h2, List.mem_append]
    · intro t ht c coll' i'
      cases t with
      | absent => simp [refreshTarget, touchedTarget]
      | one r =>
          have hlt : sizeOf r < n := by
            have := RelTarget.one.sizeOf_spec r
            omega
          rw [refreshTarget, touchedTarget]
          exact (ih (sizeOf r) hlt).1 r le_rfl c coll' i'
      | many coll elems =>
          have hlt : sizeOf elems < n := by
            have := RelTarget.many.sizeOf_spec coll elems
            omega
          rw [refreshTarget, touchedTarget]
          exact (ih (sizeOf elems) hlt).2.2.2 elems le_rfl c coll' i'
    · intro l hl c coll' i'
      cases l with
      | nil => simp [refreshElems, touchedElems]
      | cons r rest =>
          have hlt_r : sizeOf r < n := by
            have := List.cons.sizeOf_spec r rest
            omega
          have hlt_rest : sizeOf rest < n := by
            have := List.cons.sizeOf_spec r rest
            omega
          rw [refreshElems, (ih (sizeOf rest) hlt_rest).2.2.2 rest le_rfl,
              (ih (sizeOf r) hlt_r).1 r le_rfl, touchedElems]
          by_cases h1 : (coll', i') ∈ touchedElems rest <;>
            by_cases h2 : (coll', i') ∈ touchedRec r <;>
              simp [h1, h2, List.mem_append]

theorem mem_touchedMemo_of_mem (m : List (FieldName × RelTarget))
    (f : FieldName) (t : RelTarget) (p : CollName × RowId)
    (hmem : (f, t) ∈ m) (hp : p ∈ touchedTarget t) :
    p ∈ touchedMemo m := by
  induction m with
  | nil => simp at hmem
  | cons hd rest ih =>
      obtain ⟨f₀, t₀⟩ := hd
      rw [touchedMemo, List.mem_append]
      rcases List.mem_cons.mp hmem with h | h
      · rw [Prod.mk.injEq] at h
        obtain ⟨rfl, rfl⟩ := h
        exact Or.inl hp
      · exact Or.inr (ih h)

/-- C7: `Record.refresh` resets this row's cached field mapping to the
`{'id': id}` placeholder (so the row id stays registered in its bucket),
recursively does the same for every row reachable through the memoized
relational targets (records and record lists alike), touches no other
binding of the store, and returns the same record handle with its memo
emptied. -/
theorem c7_refresh_recursive_invalidation (c : Cache) (r : RecInst) :
    (∀ p : CollName × RowId, p ∈ touchedRec r →
        getRow (refreshRec c r) p.1 p.2 = some (idEntry p.2)) ∧
    (∀ p : CollName × RowId, p ∉ touchedRec r →
        getRow (refreshRec c r) p.1 p.2 = getRow c p.1 p.2) ∧
    (r.coll, r.rid) ∈ touchedRec r ∧
    getRow (refreshRec c r) r.coll r.rid = some (idEntry r.rid) ∧
    (∀ f t, (f, t) ∈ r.memo → ∀ p ∈ touchedTarget t,
        getRow (refreshRec c r) p.1 p.2 = some (idEntry p.2)) ∧
    refreshedRec r = RecInst.mk r.coll r.rid [] := by
  have H := (refresh_char_aux (sizeOf r)).1 r le_rfl c
  have hself : (r.coll, r.rid) ∈ touchedRec r := by
    cases r with
    | mk coll rid memo =>
        rw [touchedRec]
        exact List.mem_cons_self _ _
  have hmem : ∀ p : CollName × RowId, p ∈ touchedRec r →
      getRow (refreshRec c r) p.1 p.2 = some (idEntry p.2) := by
    intro p hp
    obtain ⟨pc, pi⟩ := p
    rw [H pc pi, if_pos hp]
  refine ⟨hmem, ?_, hself, hmem _ hself, ?_, rfl⟩
  · intro p hp
    obtain ⟨pc, pi⟩ := p
    rw [H pc pi, if_neg hp]
  · intro f t hft p hp
    refine hmem p ?_
    cases r with
    | mk coll rid memo =>
        rw [touchedRec]
        exact List.mem_cons_of_mem _
          (mem_touchedMemo_of_mem memo f t p hft hp)

/-- Witness for C7 at the concrete record `recW` (partner 1 with a
memoized many2one target, company 7): refreshing also resets the resolved
relation's own cache entry, and partner 1 keeps its id placeholder. -/
theorem c7_witness :
    getRow (refreshRec cRefresh recW) "company" 7 = some (idEntry 7) ∧
    getRow (refreshRec cRefresh recW) "partner" 1 = some (idEntry 1) :=
  ⟨(c7_refresh_recursive_invalidation cRefresh recW).1 ("company", 7)
     (by decide),
   (c7_refresh_recursive_invalidation cRefresh recW).2.2.2.1⟩

/-! ## Agreement and presence preservation (toward C4) -/

theorem cacheAgrees_writeField (db : DB) (c : Cache) (coll : CollName)
    (rid : RowId) (name : FieldName) (hagree : CacheAgrees db c) :
    CacheAgrees db (writeField c coll rid name (db coll rid name)) := by
  intro coll' rid' f' v h
  rw [lookupField_writeField] at h
  by_cases hcond : coll = coll' ∧ rid = rid' ∧ name = f'
  · rw [if_pos hcond] at h
    obtain ⟨rfl, rfl, rfl⟩ := hcond
    injection h with h
    exact h.symm
  · rw [if_neg hcond] at h
    exact hagree _ _ _ _ h

theorem cacheAgrees_writeBatch (db : DB) (c : Cache) (coll : CollName)
    (name : FieldName) (ids : List RowId) (hagree : CacheAgrees db c) :
    CacheAgrees db (writeBatch db coll name ids c) := by
  induction ids generalizing c with
  | nil => exact hagree
  | cons i rest ih =>
      rw [writeBatch_cons]
      exact ih _ (cacheAgrees_writeField db c coll i name hagree)

theorem cacheAgrees_registerId (db : DB) (c : Cache) (coll : CollName)
    (rid : RowId) (hagree : CacheAgrees db c) :
    CacheAgrees db (registerId c coll rid) := by
  intro coll' rid' f' v h
  rw [lookupField_registerId] at h
  exact hagree _ _ _ _ h

theorem cacheAgrees_registerIds (db : DB) (c : Cache) (coll : CollName)
    (ids : List RowId) (hagree : CacheAgrees db c) :
    CacheAgrees db (registerIds c coll ids) := by
  intro coll' rid' f' v h
  rw [lookupField_registerIds] at h
  exact hagree _ _ _ _ h

theorem present_writeField (c : Cache) (coll : CollName) (rid : RowId)
    (name : FieldName) (v : RawValue) (coll' : CollName) (rid' : RowId)
    (h : (getRow c coll' rid').isSome = true) :
    (getRow (writeField c coll rid name v) coll' rid').isSome = true := by
  rw [writeField, getRow_setEntry]
  by_cases hc : coll = coll' ∧ rid = rid'
  · rw [if_pos hc]; rfl
  · rw [if_neg hc]; exact h

theorem present_writeBatch (db : DB) (c : Cache) (coll : CollName)
    (name : FieldName) (ids : List RowId) (coll' : CollName) (rid' : RowId)
    (h : (getRow c coll' rid').isSome = true) :
    (getRow (writeBatch db coll name ids c) coll' rid').isSome = true := by
  induction ids generalizing c with
  | nil => exact h
  | cons i rest ih =>
      rw [writeBatch_cons]
      exact ih _ (present_writeField c coll i name _ coll' rid' h)

theorem present_registerId (c : Cache) (coll : CollName) (rid : RowId)
    (coll' : CollName) (rid' : RowId)
    (h : (getRow c coll' rid').isSome = true) :
    (getRow (registerId c coll rid) coll' rid').isSome = true := by
  rw [registerId]
  by_cases hreg : (alget (getBucket c coll) rid).isSome = true
  · rw [if_pos hreg]; exact h
  · rw [if_neg hreg, getRow_setEntry]
    by_cases hc : coll = coll' ∧ rid = rid'
    · rw [if_pos hc]; rfl
    · rw [if_neg hc]; exact h

theorem present_registerId_self (c : Cache) (coll : CollName)
    (rid : RowId) :
    (getRow (registerId c coll rid) coll rid).isSome = true := by
  rw [registerId]
  by_cases hreg : (alget (getBucket c coll) rid).isSome = true
  · rw [if_pos hreg]; exact hreg
  · rw [if_neg hreg, getRow_setEntry, if_pos ⟨rfl, rfl⟩]; rfl

theorem present_registerIds (c : Cache) (coll : CollName)
    (ids : List RowId) (coll' : CollName) (rid' : RowId)
    (h : (getRow c coll' rid').isSome = true) :
    (getRow (registerIds c coll ids) coll' rid').isSome = true := by
  induction ids generalizing c with
  | nil => exact h
  | cons i rest ih =>
      show (getRow (registerIds (registerId c coll i) coll rest)
              coll' rid').isSome = true
      exact ih _ (present_registerId c coll i coll' rid' h)

/-- The cache-fill phase always leaves the requested field of a registered
requesting row holding the database value, preserves agreement with the
database, and loses no registration. -/
theorem fetchField_spec (db : DB) (c : Cache) (coll : CollName)
    (rid : RowId) (name : FieldName)
    (hagree : CacheAgrees db c)
    (hreg : (getRow c coll rid).isSome = true) :
    lookupField (fetchField db c coll rid name).1 coll rid name =
      some (db coll rid name) ∧
    CacheAgrees db (fetchField db c coll rid name).1 ∧
    (∀ coll₂ i₂, (getRow c coll₂ i₂).isSome = true →
        (getRow (fetchField db c coll rid name).1 coll₂ i₂).isSome = true) := by
  by_cases hhit : (lookupField c coll rid name).isSome = true
  · have hfe : fetchField db c coll rid name = (c, []) := by
      rw [fetchField, if_pos hhit]
    rw [hfe]
    refine ⟨?_, hagree, fun _ _ h => h⟩
    obtain ⟨v, hv⟩ := Option.isSome_iff_exists.mp hhit
    rw [hv, hagree coll rid name v hv]
  · have hmiss : lookupField c coll rid name = none := by
      cases h : lookupField c coll rid name with
      | none => rfl
      | some v => rw [h] at hhit; simp at hhit
    have hfe : fetchField db c coll rid name =
        (writeBatch db coll name (getIdsToRead c coll name) c,
         [⟨coll, getIdsToRead c coll name, [name]⟩]) := by
      rw [fetchField, if_neg hhit]
      rfl
    rw [hfe]
    exact ⟨lookupField_writeBatch_mem db c coll name _ rid
             (self_mem_getIdsToRead c coll name rid hreg hmiss),
           cacheAgrees_writeBatch db c coll name _ hagree,
           fun coll₂ i₂ h => present_writeBatch db c coll name _ coll₂ i₂ h⟩

/-- Evaluation of `getFieldPure` at a declared field. -/
theorem getFieldPure_decl (meta : Meta) (db : DB) (coll : CollName)
    (rid : RowId) (f : FieldName) (fi : FieldInfo)
    (hid : f ≠ "id") (hdecl : alget (meta coll) f = some fi) :
    getFieldPure meta db coll rid f =
      (if fi.ftype = "many2one" then
        some (.rel (if (db coll rid f).truthy then
                      .one (.mk fi.relation (db coll rid f).relId [])
                    else .absent))
      else if fi.ftype = "one2many" ∨ fi.ftype = "many2many" then
        some (.rel (.many fi.relation
          ((db coll rid f).relIds.map fun i => RecInst.mk fi.relation i [])))
      else some (.raw (db coll rid f))) := by
  rw [getFieldPure, if_neg hid, hdecl]

/-- Under database agreement, `Record.__getitem__` on a registered row with
an empty memo computes exactly the pure value `getFieldPure`: an undeclared
field errors, a declared one returns the database-determined value, keeps
the cache in agreement, loses no registration, and hands back relational
records that are themselves registered with empty memos. -/
theorem recordGetitem_pure (meta : Meta) (db : DB) (c : Cache)
    (coll : CollName) (rid : RowId) (f : FieldName)
    (hagree : CacheAgrees db c)
    (hreg : (getRow c coll rid).isSome = true) :
    (getFieldPure meta db coll rid f = none →
        ∃ e, recordGetitem meta db c [] coll rid f = .error e) ∧
    (∀ v, getFieldPure meta db coll rid f = some v →
        ∃ c' memo' calls,
          recordGetitem meta db c [] coll rid f = .ok (v, c', memo', calls) ∧
          CacheAgrees db c' ∧
          (∀ coll₂ i₂, (getRow c coll₂ i₂).isSome = true →
              (getRow c' coll₂ i₂).isSome = true) ∧
          (∀ coll₂ rid₂ memo₂, v = .rel (.one (.mk coll₂ rid₂ memo₂)) →
              memo₂ = [] ∧ (getRow c' coll₂ rid₂).isSome = true)) := by
  by_cases hid : f = "id"
  · subst hid
    constructor
    · intro h
      rw [getFieldPure, if_pos rfl] at h
      exact Option.noConfusion h
    · intro v hv
      rw [getFieldPure, if_pos rfl] at hv
      have hv' := Option.some.inj hv
      subst hv'
      refine ⟨c, [], [], ?_, hagree, fun _ _ h => h, ?_⟩
      · simp [recordGetitem]
      · intro coll₂ rid₂ memo₂ h
        exact PyRes.noConfusion h
  · cases hdecl : alget (meta coll) f with
    | none =>
        constructor
        · intro _
          refine ⟨"No such field " ++ f ++ " in object " ++ coll ++ ", " ++
                    toString rid, ?_⟩
          simp [recordGetitem, hid, hdecl]
        · intro v hv
          rw [getFieldPure, if_neg hid, hdecl] at hv
          exact Option.noConfusion hv
    | some fi =>
        obtain ⟨hval, hagree1, hmono1⟩ :=
          fetchField_spec db c coll rid f hagree hreg
        constructor
        · intro h
          rw [getFieldPure_decl meta db coll rid f fi hid hdecl] at h
          by_cases h1 : fi.ftype = "many2one"
          · rw [if_pos h1] at h
            exact Option.noConfusion h
          · by_cases h2 : fi.ftype = "one2many" ∨ fi.ftype = "many2many"
            · rw [if_neg h1, if_pos h2] at h
              exact Option.noConfusion h
            · rw [if_neg h1, if_neg h2] at h
              exact Option.noConfusion h
        · intro v hv
          rw [getFieldPure_decl meta db coll rid f fi hid hdecl] at hv
          simp only [recordGetitem, if_neg hid, hdecl]
          simp only [getField, hval, Option.getD_some, hdecl,
                     Option.map_some, Option.getD_some]
          by_cases h1 : fi.ftype = "many2one"
          · rw [if_pos h1] at hv ⊢
            simp only [Option.some.injEq] at hv
            subst hv
            rw [getMany2oneRelObj]
            simp only [alget_nil]
            by_cases ht : (db coll rid f).truthy = true
            · simp only [if_pos ht, ht]
              refine ⟨_, _, _, rfl, cacheAgrees_registerId db _ _ _ hagree1,
                      fun a b h => present_registerId _ _ _ a b (hmono1 a b h),
                      ?_⟩
              intro coll₂ rid₂ memo₂ h
              injection h with h'
              injection h' with h''
              injection h'' with ha hb hc
              subst ha; subst hb
              exact ⟨hc.symm, present_registerId_self _ _ _⟩
            · have ht' : (db coll rid f).truthy = false := by
                cases h : (db coll rid f).truthy
                · rfl
                · exact absurd h ht
              simp only [ht', if_false, Bool.false_eq_true]
              refine ⟨_, _, _, rfl, hagree1, hmono1, ?_⟩
              intro coll₂ rid₂ memo₂ h
              injection h with h'
              exact RelTarget.noConfusion h'
          · by_cases h2 : fi.ftype = "one2many" ∨ fi.ftype = "many2many"
            · rw [if_neg h1, if_pos h2] at hv ⊢
              simp only [Option.some.injEq] at hv
              subst hv
              rw [getOne2manyRelObj]
              simp only [alget_nil]
              refine ⟨_, _, _, rfl, cacheAgrees_registerIds db _ _ _ hagree1,
                      fun a b h => present_registerIds _ _ _ a b (hmono1 a b h),
                      ?_⟩
              intro coll₂ rid₂ memo₂ h
              injection h with h'
              exact RelTarget.noConfusion h'
            · rw [if_neg h1, if_neg h2] at hv ⊢
              simp only [Option.some.injEq] at hv
              subst hv
              refine ⟨_, _, _, rfl, hagree1, hmono1, ?_⟩
              intro coll₂ rid₂ memo₂ h
              exact PyRes.noConfusion h

/-- Evaluation lemmas for the subscript-step helpers. -/
theorem pureNext_raw (meta : Meta) (db : DB) (f : FieldName) (v : RawValue) :
    pureNext meta db f (.raw v) = none := rfl

theorem pureNext_absent (meta : Meta) (db : DB) (f : FieldName) :
    pureNext meta db f (.rel .absent) = none := rfl

theorem pureNext_many (meta : Meta) (db : DB) (f : FieldName)
    (c₂ : CollName) (elems : List RecInst) :
    pureNext meta db f (.rel (.many c₂ elems)) = none := rfl

theorem pureNext_one (meta : Meta) (db : DB) (f : FieldName)
    (coll : CollName) (rid : RowId) (memo : Memo) :
    pureNext meta db f (.rel (.one (.mk coll rid memo))) =
      getFieldPure meta db coll rid f := rfl

theorem walkNext_raw (meta : Meta) (db : DB) (c : Cache) (f : FieldName)
    (v : RawValue) : walkNext meta db c f (.raw v) = none := rfl

theorem walkNext_many (meta : Meta) (db : DB) (c : Cache) (f : FieldName)
    (c₂ : CollName) (elems : List RecInst) :
    walkNext meta db c f (.rel (.many c₂ elems)) = none := rfl

theorem walkNext_one_ok (meta : Meta) (db : DB) (c : Cache) (f : FieldName)
    (coll : CollName) (rid : RowId) (memo : Memo) (v : PyRes) (c' : Cache)
    (m : Memo) (calls : List ReadCall)
    (h : recordGetitem meta db c memo coll rid f = .ok (v, c', m, calls)) :
    walkNext meta db c f (.rel (.one (.mk coll rid memo))) =
      some (v, c', calls) := by
  have hbody : walkNext meta db c f (.rel (.one (.mk coll rid memo))) =
      match recordGetitem meta db c memo coll rid f with
      | .error _ => none
      | .ok (v, c', _, calls) => some (v, c', calls) := rfl
  rw [hbody, h]

theorem walkNext_one_error (meta : Meta) (db : DB) (c : Cache)
    (f : FieldName) (coll : CollName) (rid : RowId) (memo : Memo)
    (e : String)
    (h : recordGetitem meta db c memo coll rid f = .error e) :
    walkNext meta db c f (.rel (.one (.mk coll rid memo))) = none := by
  have hbody : walkNext meta db c f (.rel (.one (.mk coll rid memo))) =
      match recordGetitem meta db c memo coll rid f with
      | .error _ => none
      | .ok (v, c', _, calls) => some (v, c', calls) := rfl
  rw [hbody, h]

/-- The stateful walker of `mapped` computes exactly the pure walk: on a
cache agreeing with the database, starting from a value whose record (if
any) is registered and memo-free, both walkers fail together, and on
success the stateful one returns the pure value together with an agreeing
cache that lost no registration. -/
theorem mappedWalk_pure (meta : Meta) (db : DB) :
    ∀ (path : List FieldName) (val : PyRes) (c : Cache),
    CacheAgrees db c →
    (∀ coll₂ rid₂ memo₂, val = .rel (.one (.mk coll₂ rid₂ memo₂)) →
        memo₂ = [] ∧ (getRow c coll₂ rid₂).isSome = true) →
    (walkPureVal meta db val path = none →
        mappedWalk meta db val c path = none) ∧
    (∀ v, walkPureVal meta db val path = some v →
        ∃ c' calls, mappedWalk meta db val c path = some (v, c', calls) ∧
          CacheAgrees db c' ∧
          (∀ coll₂ i₂, (getRow c coll₂ i₂).isSome = true →
              (getRow c' coll₂ i₂).isSome = true) ∧
          (∀ coll₂ rid₂ memo₂, v = .rel (.one (.mk coll₂ rid₂ memo₂)) →
              memo₂ = [] ∧ (getRow c' coll₂ rid₂).isSome = true)) := by
  intro path
  induction path with
  | nil =>
      intro val c hagree hval
      constructor
      · intro h
        rw [walkPureVal] at h
        exact Option.noConfusion h
      · intro v hv
        rw [walkPureVal] at hv
        have hv' := Option.some.inj hv
        subst hv'
        exact ⟨c, [], rfl, hagree, fun _ _ h => h, hval⟩
  | cons f rest ih =>
      intro val c hagree hval
      by_cases ht : val.truthy = false
      · constructor
        · intro h
          rw [walkPureVal, if_pos ht] at h
          exact Option.noConfusion h
        · intro v hv
          rw [walkPureVal, if_pos ht] at hv
          have hv' := Option.some.inj hv
          subst hv'
          refine ⟨c, [], ?_, hagree, fun _ _ h => h, hval⟩
          rw [mappedWalk, if_pos ht]
      · cases val with
        | raw v₀ =>
            constructor
            · intro _
              rw [mappedWalk, if_neg ht]
              simp only [walkNext_raw]
            · intro v hv
              rw [walkPureVal, if_neg ht] at hv
              simp only [pureNext_raw] at hv
              exact Option.noConfusion hv
        | rel t =>
            cases t with
            | absent =>
                exact absurd rfl ht
            | many c₂ elems =>
                constructor
                · intro _
                  rw [mappedWalk, if_neg ht]
                  simp only [walkNext_many]
                · intro v hv
                  rw [walkPureVal, if_neg ht] at hv
                  simp only [pureNext_many] at hv
                  exact Option.noConfusion hv
            | one r =>
                cases r with
                | mk coll₂ rid₂ memo₂ =>
                    obtain ⟨hm, hpres⟩ := hval coll₂ rid₂ memo₂ rfl
                    subst hm
                    have G := recordGetitem_pure meta db c coll₂ rid₂ f
                      hagree hpres
                    cases hgp : getFieldPure meta db coll₂ rid₂ f with
                    | none =>
                        obtain ⟨e, he⟩ := G.1 hgp
                        constructor
                        · intro _
                          rw [mappedWalk, if_neg ht]
                          simp only [walkNext_one_error meta db c f coll₂
                            rid₂ [] e he]
                        · intro v hv
                          rw [walkPureVal, if_neg ht] at hv
                          simp only [pureNext_one, hgp] at hv
                          exact Option.noConfusion hv
                    | some v₁ =>
                        obtain ⟨c₁, memo₁, calls₁, hok, hagree₁, hmono₁,
                                hrel₁⟩ := G.2 v₁ hgp
                        have hnext := walkNext_one_ok meta db c f coll₂ rid₂
                          [] v₁ c₁ memo₁ calls₁ hok
                        have IH := ih v₁ c₁ hagree₁ hrel₁
                        constructor
                        · intro h
                          rw [walkPureVal, if_neg ht] at h
                          simp only [pureNext_one, hgp] at h
                          rw [mappedWalk, if_neg ht]
                          simp only [hnext, IH.1 h]
                        · intro v hv
                          rw [walkPureVal, if_neg ht] at hv
                          simp only [pureNext_one, hgp] at hv
                          obtain ⟨c₂, calls₂, hw, hagree₂, hmono₂, hrel₂⟩ :=
                            IH.2 v hv
                          refine ⟨c₂, calls₁ ++ calls₂, ?_, hagree₂,
                                  fun a b h => hmono₂ a b (hmono₁ a b h),
                                  hrel₂⟩
                          rw [mappedWalk, if_neg ht]
                          simp only [hnext, hw]

/-- The member loop of `mapped` refines its pure specification: with an
agreeing cache and all member rows registered, both fail together, and on
success the stateful loop returns the pure result. -/
theorem mappedGo_pure (meta : Meta) (db : DB) (coll : CollName)
    (path : List FieldName) :
    ∀ (rids : List RowId) (res : MappedRes) (c : Cache)
      (calls : List ReadCall),
    CacheAgrees db c →
    (∀ rid ∈ rids, (getRow c coll rid).isSome = true) →
    (mappedSpecGo meta db coll path rids res = none →
        mappedGo meta db coll path rids res c calls = none) ∧
    (∀ res', mappedSpecGo meta db coll path rids res = some res' →
        ∃ c' calls', mappedGo meta db coll path rids res c calls =
          some (res', c', calls')) := by
  intro rids
  induction rids with
  | nil =>
      intro res c calls hagree hreg
      constructor
      · intro h
        rw [mappedSpecGo] at h
        exact Option.noConfusion h
      · intro res' h
        rw [mappedSpecGo] at h
        have h' := Option.some.inj h
        subst h'
        exact ⟨c, calls, rfl⟩
  | cons rid rest ih =>
      intro res c calls hagree hreg
      have hval : ∀ coll₂ rid₂ memo₂,
          (PyRes.rel (.one (.mk coll rid [])) =
            .rel (.one (.mk coll₂ rid₂ memo₂))) →
          memo₂ = [] ∧ (getRow c coll₂ rid₂).isSome = true := by
        intro coll₂ rid₂ memo₂ h
        injection h with h'
        injection h' with h''
        injection h'' with ha hb hc
        subst ha; subst hb
        exact ⟨hc.symm, hreg rid (List.mem_cons_self _ _)⟩
      have W := mappedWalk_pure meta db path
        (.rel (.one (.mk coll rid []))) c hagree hval
      cases hwp : walkPureVal meta db (.rel (.one (.mk coll rid []))) path with
      | none =>
          constructor
          · intro _
            rw [mappedGo]
            simp only [W.1 hwp]
          · intro res' h
            rw [mappedSpecGo] at h
            simp only [hwp] at h
            exact Option.noConfusion h
      | some val =>
          obtain ⟨c₁, calls₁, hw, hagree₁, hmono₁, -⟩ := W.2 val hwp
          cases hstep : mappedStep res val with
          | none =>
              constructor
              · intro _
                rw [mappedGo]
                simp only [hw, hstep]
              · intro res' h
                rw [mappedSpecGo] at h
                simp only [hwp, hstep] at h
                exact Option.noConfusion h
          | some res₁ =>
              have hreg₁ : ∀ r ∈ rest, (getRow c₁ coll r).isSome = true :=
                fun r hr => hmono₁ _ _ (hreg r (List.mem_cons_of_mem _ hr))
              have IH := ih res₁ c₁ (calls ++ calls₁) hagree₁ hreg₁
              constructor
              · intro h
                rw [mappedSpecGo] at h
                simp only [hwp, hstep] at h
                rw [mappedGo]
                simp only [hw, hstep, IH.1 h]
              · intro res' h
                rw [mappedSpecGo] at h
                simp only [hwp, hstep] at h
                obtain ⟨c₂, calls₂, hgo⟩ := IH.2 res' h
                refine ⟨c₂, calls₂, ?_⟩
                rw [mappedGo]
                simp only [hw, hstep, hgo]

/-- Evaluation lemmas for Python truthiness of field-access results. -/
theorem truthy_raw (v : RawValue) :
    (PyRes.raw v).truthy = v.truthy := rfl

theorem truthy_rel_absent : (PyRes.rel RelTarget.absent).truthy = false := rfl

theorem truthy_rel_one (t : RecInst) :
    (PyRes.rel (RelTarget.one t)).truthy = true := rfl

theorem truthy_rel_many (c : CollName) (es : List RecInst) :
    (PyRes.rel (RelTarget.many c es)).truthy = !es.isEmpty := rfl

/-- A scalar-typed `mapped` accumulation is the first-occurrence
deduplicating fold of the truthy walked scalar values (dropping falsy
values entirely). -/
theorem mappedSpecGo_scalars (meta : Meta) (db : DB) (coll : CollName)
    (path : List FieldName) :
    ∀ (rids : List RowId) (vs₀ : List RawValue) (res' : MappedRes),
    mappedSpecGo meta db coll path rids (.scalars vs₀) = some res' →
    res' = .scalars (List.foldl scalarInsert vs₀
      (collectScalars meta db coll path rids)) := by
  intro rids
  induction rids with
  | nil =>
      intro vs₀ res' h
      rw [mappedSpecGo] at h
      have h' := Option.some.inj h
      subst h'
      rw [collectScalars]
      rfl
  | cons rid rest ih =>
      intro vs₀ res' h
      rw [mappedSpecGo] at h
      cases hwv : walkedVal meta db coll path rid with
      | none =>
          have hwp : walkPureVal meta db
              (.rel (.one (.mk coll rid []))) path = none := hwv
          simp only [hwp] at h
          exact Option.noConfusion h
      | some val =>
          have hwp : walkPureVal meta db
              (.rel (.one (.mk coll rid []))) path = some val := hwv
          simp only [hwp] at h
          cases val with
          | raw v =>
              cases htv : v.truthy with
              | false =>
                  have hstep : mappedStep (.scalars vs₀) (.raw v) =
                      some (.scalars vs₀) := by
                    rw [mappedStep, if_pos ((truthy_raw v).trans htv)]
                  simp only [hstep] at h
                  have hcol : collectScalars meta db coll path (rid :: rest) =
                      collectScalars meta db coll path rest := by
                    rw [collectScalars]
                    simp [hwv, htv]
                  rw [hcol]
                  exact ih vs₀ res' h
              | true =>
                  have ht : ¬((PyRes.raw v).truthy = false) := by
                    show ¬(v.truthy = false)
                    rw [htv]
                    simp
                  have hstep : mappedStep (.scalars vs₀) (.raw v) =
                      some (.scalars (scalarInsert vs₀ v)) := by
                    rw [mappedStep, if_neg ht]
                    rfl
                  simp only [hstep] at h
                  have hcol : collectScalars meta db coll path (rid :: rest) =
                      v :: collectScalars meta db coll path rest := by
                    rw [collectScalars]
                    simp [hwv, htv]
                  rw [hcol, List.foldl_cons]
                  exact ih (scalarInsert vs₀ v) res' h
          | rel t =>
              cases t with
              | absent =>
                  have hstep : mappedStep (.scalars vs₀) (.rel .absent) =
                      some (.scalars vs₀) := by
                    rw [mappedStep, if_pos truthy_rel_absent]
                  simp only [hstep] at h
                  have hcol : collectScalars meta db coll path (rid :: rest) =
                      collectScalars meta db coll path rest := by
                    rw [collectScalars]
                    simp [hwv]
                  rw [hcol]
                  exact ih vs₀ res' h
              | one r =>
                  have hstep : mappedStep (.scalars vs₀) (.rel (.one r)) =
                      none := by
                    rw [mappedStep, if_neg (by simp [truthy_rel_one])]
                    rfl
                  simp only [hstep] at h
                  exact Option.noConfusion h
              | many c₂ elems =>
                  cases he : elems.isEmpty with
                  | true =>
                      have ht : (PyRes.rel (.many c₂ elems)).truthy = false :=
                        by simp [truthy_rel_many, he]
                      have hstep : mappedStep (.scalars vs₀)
                          (.rel (.many c₂ elems)) = some (.scalars vs₀) := by
                        rw [mappedStep, if_pos ht]
                      simp only [hstep] at h
                      have hcol : collectScalars meta db coll path
                          (rid :: rest) =
                          collectScalars meta db coll path rest := by
                        rw [collectScalars]
                        simp [hwv, he]
                      rw [hcol]
                      exact ih vs₀ res' h
                  | false =>
                      have ht : ¬((PyRes.rel (.many c₂ elems)).truthy =
                          false) := by simp [truthy_rel_many, he]
                      have hstep : mappedStep (.scalars vs₀)
                          (.rel (.many c₂ elems)) = none := by
                        rw [mappedStep, if_neg ht]
                        rfl
                      simp only [hstep] at h
                      exact Option.noConfusion h

/-- A relation-typed `mapped` accumulation keeps the target collection and
folds the truthy walked relational values: single records are appended
through the id-membership test, member lists are concatenated as-is. -/
theorem mappedSpecGo_rlist (meta : Meta) (db : DB) (coll : CollName)
    (path : List FieldName) :
    ∀ (rids : List RowId) (rc : CollName) (ids₀ : List RowId)
      (res' : MappedRes),
    mappedSpecGo meta db coll path rids (.rlist rc ids₀) = some res' →
    res' = .rlist rc (List.foldl relApply ids₀
      (collectRels meta db coll path rids)) := by
  intro rids
  induction rids with
  | nil =>
      intro rc ids₀ res' h
      rw [mappedSpecGo] at h
      have h' := Option.some.inj h
      subst h'
      rw [collectRels]
      rfl
  | cons rid rest ih =>
      intro rc ids₀ res' h
      rw [mappedSpecGo] at h
      cases hwv : walkedVal meta db coll path rid with
      | none =>
          have hwp : walkPureVal meta db
              (.rel (.one (.mk coll rid []))) path = none := hwv
          simp only [hwp] at h
          exact Option.noConfusion h
      | some val =>
          have hwp : walkPureVal meta db
              (.rel (.one (.mk coll rid []))) path = some val := hwv
          simp only [hwp] at h
          cases val with
          | raw v =>
              cases htv : v.truthy with
              | false =>
                  have hstep : mappedStep (.rlist rc ids₀) (.raw v) =
                      some (.rlist rc ids₀) := by
                    rw [mappedStep, if_pos ((truthy_raw v).trans htv)]
                  simp only [hstep] at h
                  have hcol : collectRels meta db coll path (rid :: rest) =
                      collectRels meta db coll path rest := by
                    rw [collectRels]
                    simp [hwv]
                  rw [hcol]
                  exact ih rc ids₀ res' h
              | true =>
                  have ht : ¬((PyRes.raw v).truthy = false) := by
                    show ¬(v.truthy = false)
                    rw [htv]
                    simp
                  have hstep : mappedStep (.rlist rc ids₀) (.raw v) =
                      none := by
                    rw [mappedStep, if_neg ht]
                    rfl
                  simp only [hstep] at h
                  exact Option.noConfusion h
          | rel t =>
              cases t with
              | absent =>
                  have hstep : mappedStep (.rlist rc ids₀) (.rel .absent) =
                      some (.rlist rc ids₀) := by
                    rw [mappedStep, if_pos truthy_rel_absent]
                  simp only [hstep] at h
                  have hcol : collectRels meta db coll path (rid :: rest) =
                      collectRels meta db coll path rest := by
                    rw [collectRels]
                    simp [hwv]
                  rw [hcol]
                  exact ih rc ids₀ res' h
              | one r =>
                  have hstep : mappedStep (.rlist rc ids₀) (.rel (.one r)) =
                      some (.rlist rc
                        (if r.rid ∈ ids₀ then ids₀ else ids₀ ++ [r.rid])) := by
                    rw [mappedStep, if_neg (by simp [truthy_rel_one])]
                    rfl
                  simp only [hstep] at h
                  have hcol : collectRels meta db coll path (rid :: rest) =
                      .single r.rid :: collectRels meta db coll path rest := by
                    rw [collectRels]
                    simp [hwv]
                  rw [hcol, List.foldl_cons]
                  exact ih rc _ res' h
              | many c₂ elems =>
                  cases he : elems.isEmpty with
                  | true =>
                      have ht : (PyRes.rel (.many c₂ elems)).truthy = false :=
                        by simp [truthy_rel_many, he]
                      have hstep : mappedStep (.rlist rc ids₀)
                          (.rel (.many c₂ elems)) = some (.rlist rc ids₀) := by
                        rw [mappedStep, if_pos ht]
                      simp only [hstep] at h
                      have hcol : collectRels meta db coll path (rid :: rest) =
                          collectRels meta db coll path rest := by
                        rw [collectRels]
                        simp [hwv, he]
                      rw [hcol]
                      exact ih rc ids₀ res' h
                  | false =>
                      have ht : ¬((PyRes.rel (.many c₂ elems)).truthy =
                          false) := by simp [truthy_rel_many, he]
                      have hstep : mappedStep (.rlist rc ids₀)
                          (.rel (.many c₂ elems)) =
                          some (.rlist rc
                            (ids₀ ++ elems.map RecInst.rid)) := by
                        rw [mappedStep, if_neg ht]
                        rfl
                      simp only [hstep] at h
                      have hcol : collectRels meta db coll path (rid :: rest) =
                          .batch (elems.map RecInst.rid) ::
                            collectRels meta db coll path rest := by
                        rw [collectRels]
                        simp [hwv, he]
                      rw [hcol, List.foldl_cons]
                      exact ih rc _ res' h

/-- The first-occurrence insertion fold produces no duplicates. -/
theorem foldl_scalarInsert_nodup (l : List RawValue) :
    ∀ vs₀ : List RawValue, vs₀.Nodup →
      (List.foldl scalarInsert vs₀ l).Nodup := by
  induction l with
  | nil => intro vs₀ h; exact h
  | cons v rest ih =>
      intro vs₀ h
      rw [List.foldl_cons]
      apply ih
      rw [scalarInsert]
      by_cases hv : v ∈ vs₀
      · rw [if_pos hv]; exact h
      · rw [if_neg hv, List.nodup_append]
        refine ⟨h, List.nodup_singleton v, ?_⟩
        intro a ha hav
        rw [List.mem_singleton] at hav
        subst hav
        exact hv ha

/-- When every accumulation action is a single record (a many2one-only
walk), the relational fold produces no duplicate ids. -/
theorem foldl_relApply_nodup (l : List RelAct)
    (hall : ∀ a ∈ l, ∃ i, a = RelAct.single i) :
    ∀ ids₀ : List RowId, ids₀.Nodup →
      (List.foldl relApply ids₀ l).Nodup := by
  induction l with
  | nil => intro ids₀ h; exact h
  | cons a rest ih =>
      intro ids₀ h
      obtain ⟨i, rfl⟩ := hall a (List.mem_cons_self _ _)
      rw [List.foldl_cons]
      apply ih (fun b hb => hall b (List.mem_cons_of_mem _ hb))
      rw [relApply]
      by_cases hi : i ∈ ids₀
      · rw [if_pos hi]; exact h
      · rw [if_neg hi, List.nodup_append]
        refine ⟨h, List.nodup_singleton i, ?_⟩
        intro b hb hbi
        rw [List.mem_singleton] at hbi
        subst hbi
        exact hi hb

/-- Every row entry of `cW3` is still empty. -/
theorem getEntry_cW3 (coll : CollName) (rid : RowId) :
    getEntry cW3 coll rid = [] := by
  rw [getEntry, getBucket, cW3]
  simp only [alget]
  split_ifs <;> simp [alget] <;> split_ifs <;> rfl

/-- A cache whose registered rows hold no field values yet agrees with
every database; `cW3` is such a cache. -/
theorem cacheAgrees_cW3 (db : DB) : CacheAgrees db cW3 := by
  intro coll rid f v h
  rw [lookupField, getEntry_cW3] at h
  exact Option.noConfusion h

/-- C4 counterexample: the claim says a scalar terminal field yields the
plain value sequence with *no* deduplication (names `A, B, A` give
`[A, B, A]`), but `mapped`'s accumulation loop tests `val not in res` for
scalar results too: three members with names `A, B, A` produce `[A, B]`. -/
theorem c4_counterexample :
    (mapped metaW dbW "partner" [1, 2, 3] cW3 ["name"]).map (fun x => x.1) =
      some (.scalars [.vstr "A", .vstr "B"]) ∧
    MappedRes.scalars [.vstr "A", .vstr "B"] ≠
      .scalars [.vstr "A", .vstr "B", .vstr "A"] := by
  constructor
  · decide
  · decide

/-- C4 (amended): for a member list with registered rows over a cache
agreeing with the database, `mapped` on a dot-separated field path computes
its pure specification, and the result is: for a scalar terminal field, the
ordered sequence of the truthy walked values **deduplicated by first
occurrence** (duplicate-free); for a relational terminal field, a
record list on the relation's target collection accumulated in member
order — many2one values deduplicated by row id (duplicate-free when all
walked values are single records), one2many/many2many member lists
concatenated without deduplication; members whose walk ends in a falsy
value contribute nothing. -/
theorem c4_mapped_amended (meta : Meta) (db : DB) (coll : CollName)
    (memberIds : List RowId) (c : Cache) (path : List FieldName)
    (hagree : CacheAgrees db c)
    (hreg : ∀ rid ∈ memberIds, (getRow c coll rid).isSome = true) :
    ((mapped meta db coll memberIds c path).map (fun x => x.1) =
      mappedSpec meta db coll memberIds path) ∧
    (resolveFieldPathRel meta coll path = none →
      ∀ res', mappedSpec meta db coll memberIds path = some res' →
        res' = .scalars (List.foldl scalarInsert []
          (collectScalars meta db coll path memberIds)) ∧
        (∀ vs, res' = .scalars vs → vs.Nodup)) ∧
    (∀ rc, resolveFieldPathRel meta coll path = some rc →
      ∀ res', mappedSpec meta db coll memberIds path = some res' →
        res' = .rlist rc (List.foldl relApply []
          (collectRels meta db coll path memberIds)) ∧
        ((∀ a ∈ collectRels meta db coll path memberIds,
            ∃ i, a = RelAct.single i) →
          ∀ ids, res' = .rlist rc ids → ids.Nodup)) := by
  refine ⟨?_, ?_, ?_⟩
  · cases hres : resolveFieldPathRel meta coll path with
    | none =>
        simp only [mapped, mappedSpec, hres]
        have M := mappedGo_pure meta db coll path memberIds
          (.scalars []) c [] hagree hreg
        cases hms : mappedSpecGo meta db coll path memberIds
            (.scalars []) with
        | none => rw [M.1 hms]; rfl
        | some res' =>
            obtain ⟨c', calls', hgo⟩ := M.2 res' hms
            rw [hgo]
            rfl
    | some rc =>
        simp only [mapped, mappedSpec, hres]
        have M := mappedGo_pure meta db coll path memberIds
          (.rlist rc []) c [] hagree hreg
        cases hms : mappedSpecGo meta db coll path memberIds
            (.rlist rc []) with
        | none => rw [M.1 hms]; rfl
        | some res' =>
            obtain ⟨c', calls', hgo⟩ := M.2 res' hms
            rw [hgo]
            rfl
  · intro hres res' h
    simp only [mappedSpec, hres] at h
    have hchar := mappedSpecGo_scalars meta db coll path memberIds [] res' h
    refine ⟨hchar, ?_⟩
    intro vs hvs
    subst hvs
    have h' := MappedRes.scalars.inj hchar
    rw [h']
    exact foldl_scalarInsert_nodup _ [] List.nodup_nil
  · intro rc hres res' h
    simp only [mappedSpec, hres] at h
    have hchar := mappedSpecGo_rlist meta db coll path memberIds rc [] res' h
    refine ⟨hchar, ?_⟩
    intro hall ids hids
    subst hids
    obtain ⟨-, h'⟩ := MappedRes.rlist.inj hchar
    rw [h']
    exact foldl_relApply_nodup _ hall [] List.nodup_nil

/-- Witness for C4 (amended): a many2one terminal path on three members
whose `company_id` all resolve to company 7. -/
theorem c4_witness :
    (∀ rid ∈ [1, 2, 3], (getRow cW3 "partner" rid).isSome = true) ∧
    (((mapped metaW dbW "partner" [1, 2, 3] cW3 ["company_id"]).map
        (fun x => x.1) =
      mappedSpec metaW dbW "partner" [1, 2, 3] ["company_id"]) ∧
    (resolveFieldPathRel metaW "partner" ["company_id"] = none →
      ∀ res', mappedSpec metaW dbW "partner" [1, 2, 3] ["company_id"] =
          some res' →
        res' = .scalars (List.foldl scalarInsert []
          (collectScalars metaW dbW "partner" ["company_id"] [1, 2, 3])) ∧
        (∀ vs, res' = .scalars vs → vs.Nodup)) ∧
    (∀ rc, resolveFieldPathRel metaW "partner" ["company_id"] = some rc →
      ∀ res', mappedSpec metaW dbW "partner" [1, 2, 3] ["company_id"] =
          some res' →
        res' = .rlist rc (List.foldl relApply []
          (collectRels metaW dbW "partner" ["company_id"] [1, 2, 3])) ∧
        ((∀ a ∈ collectRels metaW dbW "partner" ["company_id"] [1, 2, 3],
            ∃ i, a = RelAct.single i) →
          ∀ ids, res' = .rlist rc ids → ids.Nodup))) :=
  ⟨by decide,
   c4_mapped_amended metaW dbW "partner" [1, 2, 3] cW3 ["company_id"]
     (cacheAgrees_cW3 dbW) (by decide)⟩

end OdooRpc
